import Mathlib

/-!
# Verification of the sv13 duel-bot persistent-data service (server.js)

This file gives a shallow embedding of the path-sanitization and storage
layer of the JSON file store in src/server.js and proves the specified
properties about it.

Modelling conventions:
* Strings are Lean strings (lists of Unicode scalar values).
* Node's path.posix primitives (normalize, join, dirname) are modelled
  faithfully at the character-list level; the path separator is the forward
  slash, and the backslash is an ordinary character, as on the POSIX
  implementation the service runs on.
* JS String.prototype.toLowerCase is modelled on the ASCII range, which is
  the only range the ".json" suffix comparison can be sensitive to.
* JSON documents are modelled with integer numerics (JSON.stringify and
  JSON.parse are modelled on that value space; texts with fractional or
  exponent numerals are outside the modelled value space).
* The filesystem is a store of files (path-content pairs) plus the set of
  directories created so far; fs.existsSync is true on files and
  directories, fs.readFile fails (EISDIR) on a directory, fs.mkdir
  recursive fails when a required directory name is taken by a file, and
  fs.writeFile fails (EISDIR) when the target is a directory.
-/

namespace SV13

/-! ## Character-level path utilities -/

/-- Test whether a list of characters starts with a given character. -/
def headIs (l : List Char) (c : Char) : Bool :=
  match l with
  | [] => false
  | x :: _ => x = c

/-- Split a character list on the forward slash, the POSIX path separator.
The result is never empty, and joining it back with slashes recovers the
input. -/
def splitCh (l : List Char) : List (List Char) :=
  match l with
  | [] => [[]]
  | c :: rest =>
    if c = '/' then [] :: splitCh rest
    else
      match splitCh rest with
      | s :: ss => (c :: s) :: ss
      | [] => [[c]]

/-- Join path segments with the forward slash (inverse of splitCh). -/
def joinSegs (segs : List (List Char)) : List Char :=
  match segs with
  | [] => []
  | s :: ss =>
    match ss with
    | [] => s
    | _ :: _ => s ++ '/' :: joinSegs ss

/-- One step of Node's normalizeString: skip empty and "." segments,
resolve ".." against the accumulated segments (allowing it to survive at
the front only of relative paths). -/
def normStep (allow : Bool) (acc : List (List Char)) (seg : List Char) :
    List (List Char) :=
  if seg = [] ∨ seg = ['.'] then acc
  else if seg = ['.', '.'] then
    if acc ≠ [] ∧ acc.getLast? ≠ some ['.', '.'] then acc.dropLast
    else if allow then acc ++ [['.', '.']]
    else acc
  else acc ++ [seg]

/-- Resolve "." and ".." segments of a split path, as Node's
normalizeString does.  allow is true exactly for relative paths, whose
unresolvable leading ".." segments are kept. -/
def normSegs (allow : Bool) (segs : List (List Char)) : List (List Char) :=
  segs.foldl (normStep allow) []

/-- Node path.posix.normalize on character lists: resolve "." and ".."
segments, collapse duplicate separators, preserve a trailing separator,
return "." for an empty relative result. -/
def pathNormalizeL (l : List Char) : List Char :=
  if l = [] then ['.']
  else
    let isAbs := headIs l '/'
    let trailing := l.getLast? = some '/'
    let body := joinSegs (normSegs (!isAbs) (splitCh l))
    let body2 := if body = [] ∧ isAbs = false then ['.'] else body
    let body3 := if body2 ≠ [] ∧ trailing then body2 ++ ['/'] else body2
    if isAbs then '/' :: body3 else body3

/-- Node path.posix.normalize (string wrapper). -/
def pathNormalize (p : String) : String :=
  String.mk (pathNormalizeL p.data)

/-- The replace of the anchored regex stripping every leading
parent-directory segment: repeatedly remove a leading "../" or a leading
backslash variant, and remove a bare ".." entirely (server.js line 54). -/
def stripDD (l : List Char) : List Char :=
  match l with
  | '.' :: '.' :: '/' :: rest => stripDD rest
  | '.' :: '.' :: '\\' :: rest => stripDD rest
  | ['.', '.'] => []
  | l => l

/-- JS String.prototype.includes("..") on character lists: some character
is a dot immediately followed by another dot (server.js line 56). -/
def hasDD (l : List Char) : Bool :=
  match l with
  | [] => false
  | c :: rest => (c = '.' && headIs rest '.') || hasDD rest

/-- ASCII lower-casing of one character, the fragment of JS toLowerCase
relevant to the ".json" suffix comparison. -/
def lowerChar (c : Char) : Char :=
  if 'A' ≤ c ∧ c ≤ 'Z' then Char.ofNat (c.toNat + 32) else c

/-- Decide whether the first list is a prefix of the second. -/
def isPrefixL (pre l : List Char) : Bool :=
  match pre, l with
  | [], _ => true
  | _ :: _, [] => false
  | a :: as, b :: bs => a = b && isPrefixL as bs

/-- Decide whether the first list is a suffix of the second. -/
def isSuffixL (suf l : List Char) : Bool :=
  isPrefixL suf.reverse l.reverse

/-- The check cleaned.toLowerCase().endsWith(".json") of server.js
line 58, on character lists. -/
def endsJsonLower (l : List Char) : Bool :=
  isSuffixL ['.', 'j', 's', 'o', 'n'] (l.map lowerChar)

/-- The replace of the regex stripping leading separators
(server.js line 59). -/
def stripSeps (l : List Char) : List Char :=
  l.dropWhile (fun c => c = '/' || c = '\\')

/-- The sanitize helper of server.js (lines 52-60) on character lists:
normalize, strip leading parent-directory segments, reject on a remaining
".." substring, reject unless the lower-cased path ends in ".json",
strip leading separators. -/
def sanitizeL (l : List Char) : Option (List Char) :=
  let cleaned := stripDD (pathNormalizeL l)
  if hasDD cleaned then none
  else if endsJsonLower cleaned = false then none
  else some (stripSeps cleaned)

/-- The sanitize helper of server.js (lines 52-60). -/
def sanitize (pth : String) : Option String :=
  (sanitizeL pth.data).map String.mk

/-- Node path.posix.join of two parts: empty parts are dropped, the rest
are joined with a separator and normalized; with no parts the result
is ".". -/
def pathJoin2 (a b : String) : String :=
  if a.data = [] ∧ b.data = [] then "."
  else if a.data = [] then pathNormalize b
  else if b.data = [] then pathNormalize a
  else pathNormalize (a ++ "/" ++ b)

/-- The segments normStep keeps verbatim when no ".." is around: nonempty
and not ".". -/
def keepSeg (s : List Char) : Bool :=
  if s = [] ∨ s = ['.'] then false else true

/-- A segment a resolved absolute path may contain: nonempty and not a
relative-navigation segment. -/
def plainSeg (s : List Char) : Bool :=
  if s = [] ∨ s = ['.'] ∨ s = ['.', '.'] then false else true

/-- The shape path.resolve gives the Storage Root: an absolute path,
already normalized, with at least one segment and no empty, "." or ".."
segments (hence no trailing separator). -/
def goodRoot (root : String) : Bool :=
  match splitCh root.data with
  | [] :: s :: ss => (s :: ss).all plainSeg
  | _ => false

/-- n copies of the parent-directory prefix "../". -/
def repeatDDL : Nat → List Char
  | 0 => []
  | n + 1 => '.' :: '.' :: '/' :: repeatDDL n

/-- n copies of "../" as a string, for stating the traversal property. -/
def leadingDots (n : Nat) : String :=
  String.mk (repeatDDL n)

/-- Node path.posix.dirname for paths without a trailing separator (the
only shape this service feeds it): everything before the last separator,
"." when there is none, "/" when the last separator is the leading one. -/
def dirname (p : String) : String :=
  match splitCh p.data with
  | [_] => "."
  | segs => if segs.dropLast = [[]] then "/" else String.mk (joinSegs segs.dropLast)

/-! ## JSON documents

The values JSON.stringify serializes and JSON.parse produces, with
numbers restricted to integers (the only numerics this service's
documents need; fractional and exponent numerals are outside the model). -/

inductive Json where
  | null : Json
  | bool (b : Bool) : Json
  | num (n : Int) : Json
  | str (s : String) : Json
  | arr (elems : List Json) : Json
  | obj (members : List (String × Json)) : Json
deriving Repr

/- Structural size of a JSON value, used to budget the parser fuel. -/
mutual

/-- Structural size of a JSON value. -/
def jsize : Json → Nat
  | .null => 1
  | .bool _ => 1
  | .num _ => 1
  | .str _ => 1
  | .arr xs => 1 + jsizeL xs
  | .obj ms => 1 + jsizeM ms
termination_by structural v => v

def jsizeL : List Json → Nat
  | [] => 0
  | x :: xs => 1 + jsize x + jsizeL xs
termination_by structural l => l

def jsizeM : List (String × Json) → Nat
  | [] => 0
  | m :: ms => 1 + jsize m.2 + jsizeM ms
termination_by structural l => l

end

/-- The decimal digit characters. -/
def digitChar : Nat → Char
  | 0 => '0' | 1 => '1' | 2 => '2' | 3 => '3' | 4 => '4'
  | 5 => '5' | 6 => '6' | 7 => '7' | 8 => '8' | 9 => '9'
  | _ => '*'

/-- Base-ten digit expansion with a structural budget (any budget above
the number suffices and they all agree). -/
def natDigitsAux : Nat → Nat → List Char
  | 0, _ => []
  | fuel + 1, n =>
    if n < 10 then [digitChar n]
    else natDigitsAux fuel (n / 10) ++ [digitChar (n % 10)]

/-- Base-ten digits of a natural number, most significant first. -/
def natDigits (n : Nat) : List Char :=
  natDigitsAux (n + 1) n

/-- JS number-to-string on integers, as JSON.stringify renders them. -/
def numChars (n : Int) : List Char :=
  if n < 0 then '-' :: natDigits n.natAbs else natDigits n.toNat

/-- Lower-case hexadecimal digit, as JS Number.prototype.toString(16). -/
def hexDigitChar (n : Nat) : Char :=
  if n < 10 then digitChar n
  else if n = 10 then 'a' else if n = 11 then 'b' else if n = 12 then 'c'
  else if n = 13 then 'd' else if n = 14 then 'e' else 'f'

/-- JSON.stringify escaping of one string character (QuoteJSONString):
quote, backslash and the named control escapes get two-character escapes,
the remaining control characters get a \\u escape, everything else passes
through. -/
def escapeChar (c : Char) : List Char :=
  if c = '"' then ['\\', '"']
  else if c = '\\' then ['\\', '\\']
  else if c = '\x08' then ['\\', 'b']
  else if c = '\x09' then ['\\', 't']
  else if c = '\x0a' then ['\\', 'n']
  else if c = '\x0c' then ['\\', 'f']
  else if c = '\x0d' then ['\\', 'r']
  else if c.toNat < 32 then
    ['\\', 'u', '0', '0', hexDigitChar (c.toNat / 16), hexDigitChar (c.toNat % 16)]
  else [c]

/-- The escaped body of a JSON string literal. -/
def escBody (s : String) : List Char :=
  s.data.flatMap escapeChar

/-- A JSON string literal: escaped body between double quotes. -/
def quoteString (s : String) : List Char :=
  '"' :: escBody s ++ ['"']

/-- Separator after an opening bracket: with a gap, newline plus the
child indentation; compact otherwise. -/
def openSep (gap ind : List Char) : List Char :=
  if gap = [] then [] else '\n' :: (ind ++ gap)

/-- Separator before a closing bracket: with a gap, newline plus the
parent indentation; compact otherwise. -/
def closeSep (gap ind : List Char) : List Char :=
  if gap = [] then [] else '\n' :: ind

/-- Separator after a comma between entries at child indentation. -/
def elemSep (gap ind2 : List Char) : List Char :=
  if gap = [] then [] else '\n' :: ind2

/-- Separator after the colon of an object member. -/
def colonSep (gap : List Char) : List Char :=
  if gap = [] then [] else [' ']

/- JSON.stringify with an indentation gap (the service passes two spaces
when pretty, nothing when compact), producing the exact ECMA-262
SerializeJSON output for the modelled values. -/
mutual

/-- JSON.stringify of one value at a given indentation. -/
def strJ (gap ind : List Char) : Json → List Char
  | Json.null => ['n', 'u', 'l', 'l']
  | Json.bool true => ['t', 'r', 'u', 'e']
  | Json.bool false => ['f', 'a', 'l', 's', 'e']
  | Json.num n => numChars n
  | .str s => quoteString s
  | .arr [] => ['[', ']']
  | .obj [] => ['{', '}']
  | .arr (x :: xs) =>
    '[' :: openSep gap ind ++ strJL gap (ind ++ gap) (x :: xs)
      ++ closeSep gap ind ++ [']']
  | .obj (m :: ms) =>
    '{' :: openSep gap ind ++ strJM gap (ind ++ gap) (m :: ms)
      ++ closeSep gap ind ++ ['}']
termination_by structural v => v

def strJL (gap ind2 : List Char) : List Json → List Char
  | [] => []
  | [x] => strJ gap ind2 x
  | x :: xs => strJ gap ind2 x ++ ',' :: elemSep gap ind2 ++ strJL gap ind2 xs
termination_by structural l => l

def strJM (gap ind2 : List Char) : List (String × Json) → List Char
  | [] => []
  | [m] => quoteString m.1 ++ ':' :: colonSep gap ++ strJ gap ind2 m.2
  | m :: ms =>
    quoteString m.1 ++ ':' :: colonSep gap ++ strJ gap ind2 m.2
      ++ ',' :: elemSep gap ind2 ++ strJM gap ind2 ms
termination_by structural l => l

end

/-- The rendering the handlers use: JSON.stringify(data, null, 2) when the
pretty query flag is set, JSON.stringify(data) otherwise
(server.js lines 116 and 146). -/
def renderJson (pretty : Bool) (d : Json) : String :=
  String.mk (strJ (if pretty then [' ', ' '] else []) [] d)

/-! ## JSON.parse -/

/-- JSON insignificant whitespace. -/
def isJsonWs (c : Char) : Bool :=
  c = ' ' || c = '\t' || c = '\n' || c = '\r'

/-- Skip insignificant whitespace. -/
def skipWs (l : List Char) : List Char :=
  l.dropWhile isJsonWs

/-- Numeric value of a hexadecimal digit, either case. -/
def hexVal (c : Char) : Option Nat :=
  if '0' ≤ c ∧ c ≤ '9' then some (c.toNat - 48)
  else if 'a' ≤ c ∧ c ≤ 'f' then some (c.toNat - 87)
  else if 'A' ≤ c ∧ c ≤ 'F' then some (c.toNat - 55)
  else none

/-- Prepend a character to the parsed body of a partial string result. -/
def consFst (c : Char) (r : Option (List Char × List Char)) :
    Option (List Char × List Char) :=
  r.map (fun p => (c :: p.1, p.2))

/-- Parse the body of a JSON string literal after its opening quote,
returning the decoded characters and the input after the closing quote.
Raw control characters are rejected, escapes are decoded; a \\u escape
must denote a Unicode scalar value (strings are modelled as scalar-value
sequences, so lone surrogates are outside the model). -/
def parseStrBody (l : List Char) : Option (List Char × List Char) :=
  match l with
  | [] => none
  | c :: rest =>
    if c = '"' then some ([], rest)
    else if c = '\\' then
      match rest with
      | [] => none
      | e :: r =>
        if e = '"' then consFst '"' (parseStrBody r)
        else if e = '\\' then consFst '\\' (parseStrBody r)
        else if e = '/' then consFst '/' (parseStrBody r)
        else if e = 'b' then consFst '\x08' (parseStrBody r)
        else if e = 'f' then consFst '\x0c' (parseStrBody r)
        else if e = 'n' then consFst '\x0a' (parseStrBody r)
        else if e = 'r' then consFst '\x0d' (parseStrBody r)
        else if e = 't' then consFst '\x09' (parseStrBody r)
        else if e = 'u' then
          match r with
          | h1 :: h2 :: h3 :: h4 :: r2 =>
            match hexVal h1, hexVal h2, hexVal h3, hexVal h4 with
            | some a, some b, some c3, some d =>
              let n := ((a * 16 + b) * 16 + c3) * 16 + d
              if n < 0xd800 ∨ (0xdfff < n ∧ n < 0x110000) then
                consFst (Char.ofNat n) (parseStrBody r2)
              else none
            | _, _, _, _ => none
          | _ => none
        else none
    else if c.toNat < 32 then none
    else consFst c (parseStrBody rest)
termination_by structural l

/-- Longest digit run at the front of the input. -/
def spanDigits (l : List Char) : List Char × List Char :=
  match l with
  | [] => ([], [])
  | c :: rest =>
    if c.isDigit then
      let p := spanDigits rest
      (c :: p.1, p.2)
    else ([], c :: rest)

/-- Value of a digit run, most significant first. -/
def digitsToNat (ds : List Char) : Nat :=
  ds.foldl (fun a c => a * 10 + (c.toNat - 48)) 0

/-- The inputs a complete numeral may be followed by: anything that does
not start with another digit. -/
def restOK (l : List Char) : Bool :=
  match l with
  | [] => true
  | c :: _ => !c.isDigit

/-- All characters are JSON whitespace. -/
def allWs (l : List Char) : Bool :=
  l.all isJsonWs

/-- Parse an unsigned JSON integer numeral: a bare zero or a nonzero
digit followed by more digits (a leading zero before another digit is
malformed JSON). -/
def parseNat (l : List Char) : Option (Nat × List Char) :=
  match l with
  | [] => none
  | c :: r =>
    if c = '0' then
      if headIs r '0' || headIs r '1' || headIs r '2' || headIs r '3' ||
         headIs r '4' || headIs r '5' || headIs r '6' || headIs r '7' ||
         headIs r '8' || headIs r '9' then none
      else some (0, r)
    else if c.isDigit then
      let p := spanDigits (c :: r)
      some (digitsToNat p.1, p.2)
    else none

/-- Parse a JSON integer numeral with optional minus sign. -/
def parseNum (l : List Char) : Option (Int × List Char) :=
  match l with
  | [] => none
  | c :: r =>
    if c = '-' then (parseNat r).map (fun p => (-(p.1 : Int), p.2))
    else (parseNat l).map (fun p => ((p.1 : Int), p.2))

/- Recursive-descent JSON value parser (the model of JSON.parse), with a
fuel budget that the wrapper instantiates to more than the input length,
which is always sufficient. -/
mutual

/-- Parse one JSON value after optional whitespace. -/
def parseVal (fuel : Nat) (l : List Char) : Option (Json × List Char) :=
  match fuel with
  | 0 => none
  | fuel + 1 =>
    match skipWs l with
    | [] => none
    | c :: r =>
      if c = '"' then (parseStrBody r).map (fun p => (.str (String.mk p.1), p.2))
      else if c = '{' then
        let r2 := skipWs r
        if headIs r2 '}' then some (.obj [], r2.tail)
        else (parseMembers fuel r2).map (fun p => (.obj p.1, p.2))
      else if c = '[' then
        let r2 := skipWs r
        if headIs r2 ']' then some (.arr [], r2.tail)
        else (parseElems fuel r2).map (fun p => (.arr p.1, p.2))
      else if c = 't' then
        match r with
        | 'r' :: 'u' :: 'e' :: r2 => some (.bool true, r2)
        | _ => none
      else if c = 'f' then
        match r with
        | 'a' :: 'l' :: 's' :: 'e' :: r2 => some (.bool false, r2)
        | _ => none
      else if c = 'n' then
        match r with
        | 'u' :: 'l' :: 'l' :: r2 => some (.null, r2)
        | _ => none
      else (parseNum (c :: r)).map (fun p => (.num p.1, p.2))
termination_by structural fuel

def parseElems (fuel : Nat) (l : List Char) : Option (List Json × List Char) :=
  match fuel with
  | 0 => none
  | fuel + 1 =>
    match parseVal fuel l with
    | none => none
    | some (v, r) =>
      match skipWs r with
      | [] => none
      | c :: r3 =>
        if c = ',' then (parseElems fuel r3).map (fun p => (v :: p.1, p.2))
        else if c = ']' then some ([v], r3)
        else none
termination_by structural fuel

def parseMembers (fuel : Nat) (l : List Char) :
    Option (List (String × Json) × List Char) :=
  match fuel with
  | 0 => none
  | fuel + 1 =>
    match skipWs l with
    | [] => none
    | c :: r =>
      if c = '"' then
        match parseStrBody r with
        | none => none
        | some (k, r2) =>
          match skipWs r2 with
          | [] => none
          | c2 :: r4 =>
            if c2 = ':' then
              match parseVal fuel r4 with
              | none => none
              | some (v, r5) =>
                match skipWs r5 with
                | [] => none
                | c3 :: r7 =>
                  if c3 = ',' then
                    (parseMembers fuel r7).map
                      (fun p => ((String.mk k, v) :: p.1, p.2))
                  else if c3 = '}' then some ([(String.mk k, v)], r7)
                  else none
            else none
      else none
termination_by structural fuel

end

/-- JSON.parse: parse one value, then require only whitespace to remain.
The fuel is one more than the input length, which is enough for every
parse this file performs. -/
def jsonParse (s : String) : Option Json :=
  match parseVal (s.data.length + 1) s.data with
  | none => none
  | some (v, rest) => if skipWs rest = [] then some v else none

/-! ## The filesystem store and the two handlers -/

/-- The durable state the service touches: the files under (and, for
ill-behaved roots, outside) the Storage Root, as absolute-path/content
pairs, plus the directories that exist because a write created them. -/
structure Store where
  files : List (String × String)
  dirs : List String
deriving Repr

/-- Content of the file at a path, if one exists (fs.readFile succeeds
exactly on files). -/
def lookupFile (fs : List (String × String)) (p : String) : Option String :=
  match fs with
  | [] => none
  | kv :: rest => if kv.1 = p then some kv.2 else lookupFile rest p

/-- Membership in a list of paths. -/
def memStr (l : List String) (p : String) : Bool :=
  match l with
  | [] => false
  | x :: rest => if x = p then true else memStr rest p

/-- A file exists at the path. -/
def isFile (st : Store) (p : String) : Bool :=
  (lookupFile st.files p).isSome

/-- A directory exists at the path. -/
def isDir (st : Store) (p : String) : Bool :=
  memStr st.dirs p

/-- fs.existsSync: true when a file or a directory occupies the path. -/
def fsExists (st : Store) (p : String) : Bool :=
  isFile st p || isDir st p

/-- The directory paths fs.mkdir(dir, recursive) brings into existence:
every prefix of the directory, outermost first.  For a relative or bare
directory the single path itself is used. -/
def ancestorPaths (d : String) : List String :=
  match splitCh d.data with
  | [] :: tl =>
    (List.range tl.length).map (fun i => String.mk ('/' :: joinSegs (tl.take (i + 1))))
  | _ => [d]

/-- The ensureDir helper of server.js (lines 62-65): recursively create
the parent directory of the target file.  Creation fails (ENOTDIR/EEXIST)
when a required directory path is occupied by a file; otherwise it
succeeds, idempotently, and the new directory list is returned. -/
def ensureDirF (st : Store) (filePath : String) : Option (List String) :=
  let ancs := ancestorPaths (dirname filePath)
  if ancs.any (fun a => isFile st a) then none
  else some (st.dirs ++ ancs.filter (fun a => memStr st.dirs a = false))

/-- Outcome of the GET handler, as the service reports it: 400 invalid
path, 404 not found, 200 with the rendered document, 500 read failed. -/
inductive ReadResult where
  | invalidPath : ReadResult
  | notFound : ReadResult
  | ok (body : String) : ReadResult
  | readError : ReadResult
deriving Repr

/-- Outcome of the PUT handler: 400 invalid path, 400 missing JSON body,
200 with path and byte count, 500 write failed. -/
inductive WriteResult where
  | invalidPath : WriteResult
  | missingBody : WriteResult
  | ok (path : String) (bytes : Nat) : WriteResult
  | writeError : WriteResult
deriving Repr

/-- The GET handler (server.js lines 100-121): sanitize the request path,
join it to the Storage Root, report not-found unless something exists
there, read the file (a directory at the path makes the read throw, hence
read-error), treat empty content as the empty object, parse, and render
with the requested prettiness.  The store is threaded through to make the
absence of writes explicit. -/
def readOp (st : Store) (root reqPath : String) (pretty : Bool) :
    ReadResult × Store :=
  match sanitize reqPath with
  | none => (.invalidPath, st)
  | some cleaned =>
    let filePath := pathJoin2 root cleaned
    if fsExists st filePath then
      match lookupFile st.files filePath with
      | none => (.readError, st)
      | some txt =>
        if txt = "" then (.ok (renderJson pretty (Json.obj [])), st)
        else
          match jsonParse txt with
          | none => (.readError, st)
          | some d => (.ok (renderJson pretty d), st)
    else (.notFound, st)

/-- The PUT handler (server.js lines 133-156): sanitize the request path,
reject an absent JSON body before touching storage, ensure the parent
directories exist, serialize with the requested prettiness and write the
full file content, reporting the cleaned path and the UTF-8 byte count.
A failure of directory creation, or a directory sitting at the target
path, surfaces as a write error (the directories already created
persist). -/
def writeOp (st : Store) (root reqPath : String) (body : Option Json)
    (pretty : Bool) : WriteResult × Store :=
  match sanitize reqPath with
  | none => (.invalidPath, st)
  | some cleaned =>
    match body with
    | none => (.missingBody, st)
    | some doc =>
      let filePath := pathJoin2 root cleaned
      match ensureDirF st filePath with
      | none => (.writeError, st)
      | some dirs2 =>
        if memStr dirs2 filePath then (.writeError, { st with dirs := dirs2 })
        else
          let text := renderJson pretty doc
          (.ok cleaned text.utf8ByteSize,
            { files := (filePath, text) :: st.files, dirs := dirs2 })

/-! ## Lemmas about path splitting and joining -/

theorem splitCh_cons_sep (rest : List Char) :
    splitCh ('/' :: rest) = [] :: splitCh rest := by
  simp [splitCh]

theorem splitCh_shape (l : List Char) : ∃ s ss, splitCh l = s :: ss := by
  induction l with
  | nil => exact ⟨[], [], rfl⟩
  | cons c rest ih =>
    by_cases hc : c = '/'
    · exact ⟨[], splitCh rest, by simp [splitCh, hc]⟩
    · obtain ⟨s, ss, h⟩ := ih
      exact ⟨c :: s, ss, by simp [splitCh, hc, h]⟩

theorem splitCh_cons_ne (c : Char) (rest : List Char) (hc : c ≠ '/')
    (s : List Char) (ss : List (List Char)) (h : splitCh rest = s :: ss) :
    splitCh (c :: rest) = (c :: s) :: ss := by
  simp [splitCh, hc, h]

theorem joinSegs_cons_cons (s t : List Char) (ss : List (List Char)) :
    joinSegs (s :: t :: ss) = s ++ '/' :: joinSegs (t :: ss) := rfl

theorem joinSegs_splitCh (l : List Char) : joinSegs (splitCh l) = l := by
  induction l with
  | nil => rfl
  | cons c rest ih =>
    obtain ⟨s, ss, h⟩ := splitCh_shape rest
    rw [h] at ih
    by_cases hc : c = '/'
    · subst hc
      rw [splitCh_cons_sep, h, joinSegs_cons_cons]
      simpa using ih
    · rw [splitCh_cons_ne c rest hc s ss h]
      cases ss with
      | nil => simpa [joinSegs] using congrArg (c :: ·) ih
      | cons t ts =>
        rw [joinSegs_cons_cons] at ih ⊢
        simpa using congrArg (c :: ·) ih

theorem splitCh_append (a b : List Char) :
    splitCh (a ++ '/' :: b) = splitCh a ++ splitCh b := by
  induction a with
  | nil => simp [splitCh_cons_sep, splitCh]
  | cons c a2 ih =>
    by_cases hc : c = '/'
    · subst hc
      rw [List.cons_append, splitCh_cons_sep, splitCh_cons_sep, ih,
        List.cons_append]
    · obtain ⟨t, ts, h2⟩ := splitCh_shape a2
      rw [h2] at ih
      rw [List.cons_append, splitCh_cons_ne c _ hc _ _ ih,
        splitCh_cons_ne c a2 hc t ts h2, List.cons_append]
      rfl

/-! ## Lemmas about the ".." substring test -/

theorem hasDD_cons (c : Char) (l : List Char) :
    hasDD (c :: l) = ((c = '.' && headIs l '.') || hasDD l) := rfl

theorem hasDD_append_right (a b : List Char) (h : hasDD b = true) :
    hasDD (a ++ b) = true := by
  induction a with
  | nil => exact h
  | cons c a2 ih => simp [hasDD_cons, ih]

theorem hasDD_append_left (a b : List Char) (h : hasDD a = true) :
    hasDD (a ++ b) = true := by
  induction a with
  | nil => simp [hasDD] at h
  | cons c a2 ih =>
    rw [hasDD_cons] at h
    rcases Bool.or_eq_true_iff.mp h with h1 | h2
    · rcases Bool.and_eq_true_iff.mp h1 with ⟨hc, hh⟩
      cases a2 with
      | nil => simp [headIs] at hh
      | cons d a3 =>
        simp only [headIs, decide_eq_true_eq] at hh
        simp [hasDD_cons, headIs, hc, hh]
    · simp [hasDD_cons, ih h2]

theorem hasDD_suffix (s l : List Char) (hs : s <:+ l) (h : hasDD s = true) :
    hasDD l = true := by
  obtain ⟨t, rfl⟩ := hs
  exact hasDD_append_right t s h

theorem hasDD_mid_false (a b : List Char) (ha : hasDD a = false)
    (hb : hasDD b = false) : hasDD (a ++ '/' :: b) = false := by
  induction a with
  | nil => simp [hasDD_cons, headIs, hb]
  | cons c a2 ih =>
    rw [hasDD_cons] at ha
    rcases Bool.or_eq_false_iff.mp ha with ⟨h1, h2⟩
    rw [List.cons_append, hasDD_cons, ih h2, Bool.or_false]
    cases a2 with
    | nil => simp [headIs]
    | cons d a3 =>
      simp only [headIs, List.cons_append] at h1 ⊢
      exact h1

theorem hasDD_joinSegs_false (segs : List (List Char))
    (h : ∀ s ∈ segs, hasDD s = false) : hasDD (joinSegs segs) = false := by
  induction segs with
  | nil => rfl
  | cons s ss ih =>
    cases ss with
    | nil => exact h s (by simp)
    | cons t ts =>
      rw [joinSegs_cons_cons]
      exact hasDD_mid_false _ _ (h s (by simp))
        (ih (fun u hu => h u (List.mem_cons_of_mem _ hu)))

theorem hasDD_joinSegs_of_mem (segs : List (List Char)) (s : List Char)
    (hs : s ∈ segs) (h : hasDD s = true) : hasDD (joinSegs segs) = true := by
  induction segs with
  | nil => simp at hs
  | cons t ts ih =>
    cases ts with
    | nil =>
      rcases List.mem_cons.mp hs with rfl | h2
      · exact h
      · simp at h2
    | cons u us =>
      rw [joinSegs_cons_cons]
      rcases List.mem_cons.mp hs with rfl | h2
      · exact hasDD_append_left _ _ h
      · exact hasDD_append_right _ _ (by simpa [hasDD_cons, headIs] using ih h2)

theorem hasDD_of_mem_splitCh (l s : List Char) (hs : s ∈ splitCh l)
    (h : hasDD s = true) : hasDD l = true := by
  have := hasDD_joinSegs_of_mem (splitCh l) s hs h
  rwa [joinSegs_splitCh] at this

theorem splitCh_noDD (l s : List Char) (h : hasDD l = false)
    (hs : s ∈ splitCh l) : hasDD s = false := by
  by_contra hne
  rw [hasDD_of_mem_splitCh l s hs (Bool.of_not_eq_false hne)] at h
  cases h

/-! ## Lemmas about the suffix test and the ".json" check -/

theorem isPrefixL_iff (p l : List Char) : isPrefixL p l = true ↔ p <+: l := by
  induction p generalizing l with
  | nil => simp [isPrefixL]
  | cons a as ih =>
    cases l with
    | nil => simp [isPrefixL]
    | cons b bs => simp [isPrefixL, List.cons_prefix_cons, ih]

theorem isSuffixL_iff (s l : List Char) : isSuffixL s l = true ↔ s <:+ l := by
  rw [isSuffixL, isPrefixL_iff, List.reverse_prefix]

theorem endsJsonLower_of_suffix (s l : List Char) (hs : s <:+ l)
    (h : endsJsonLower s = true) : endsJsonLower l = true := by
  rw [endsJsonLower, isSuffixL_iff] at h ⊢
  obtain ⟨t, rfl⟩ := hs
  rw [List.map_append]
  exact h.trans (List.suffix_append _ _)

theorem endsJsonLower_getLast (l : List Char) (h : endsJsonLower l = true) :
    ∃ c, l.getLast? = some c ∧ lowerChar c = 'n' := by
  rw [endsJsonLower, isSuffixL_iff] at h
  obtain ⟨t, ht⟩ := h
  have hlast : (l.map lowerChar).getLast? = some 'n' := by
    rw [← ht, List.getLast?_append_of_ne_nil t (by simp)]
    rfl
  rw [List.getLast?_map] at hlast
  exact Option.map_eq_some'.mp hlast

theorem lowerChar_n_ne (c : Char) (h : lowerChar c = 'n') :
    c ≠ '/' ∧ c ≠ '\\' ∧ c ≠ '.' := by
  refine ⟨?_, ?_, ?_⟩ <;> rintro rfl <;> simp [lowerChar] at h

/-! ## Lemmas about the leading "../" stripper -/

theorem stripDD_suffix (l : List Char) : stripDD l <:+ l := by
  rw [stripDD.eq_def]
  split
  · exact (stripDD_suffix _).trans ⟨['.', '.', '/'], rfl⟩
  · exact (stripDD_suffix _).trans ⟨['.', '.', '\\'], rfl⟩
  · exact List.nil_suffix
  · exact List.suffix_rfl

/-! ## Decomposition of sanitize -/

theorem sanitizeL_parts (l r : List Char) (h : sanitizeL l = some r) :
    hasDD (stripDD (pathNormalizeL l)) = false ∧
      endsJsonLower (stripDD (pathNormalizeL l)) = true ∧
      r = stripSeps (stripDD (pathNormalizeL l)) := by
  rw [sanitizeL] at h
  by_cases h1 : hasDD (stripDD (pathNormalizeL l)) = true
  · rw [if_pos h1] at h
    cases h
  · rw [if_neg h1] at h
    by_cases h2 : endsJsonLower (stripDD (pathNormalizeL l)) = false
    · rw [if_pos h2] at h
      cases h
    · rw [if_neg h2] at h
      exact ⟨Bool.of_not_eq_true h1, Bool.of_not_eq_false h2,
        (Option.some_inj.mp h).symm⟩

theorem sanitize_parts (p r : String) (h : sanitize p = some r) :
    ∃ cleaned, cleaned = stripDD (pathNormalizeL p.data) ∧
      hasDD cleaned = false ∧ endsJsonLower cleaned = true ∧
      r.data = stripSeps cleaned := by
  rw [sanitize] at h
  obtain ⟨rl, hrl, hmk⟩ := Option.map_eq_some'.mp h
  obtain ⟨h1, h2, h3⟩ := sanitizeL_parts p.data rl hrl
  exact ⟨stripDD (pathNormalizeL p.data), rfl, h1, h2, by rw [← hmk, h3]⟩

theorem sanitize_noDD (p r : String) (h : sanitize p = some r) :
    hasDD r.data = false := by
  obtain ⟨cleaned, _, h1, _, h3⟩ := sanitize_parts p r h
  by_contra hne
  have hsuf : r.data <:+ cleaned := h3 ▸ List.dropWhile_suffix _
  rw [hasDD_suffix _ _ hsuf (Bool.of_not_eq_false hne)] at h1
  cases h1

theorem sanitize_getLast (p r : String) (h : sanitize p = some r) :
    ∃ c, r.data.getLast? = some c ∧ lowerChar c = 'n' := by
  obtain ⟨cleaned, _, _, h2, h3⟩ := sanitize_parts p r h
  obtain ⟨c, hc1, hc2⟩ := endsJsonLower_getLast cleaned h2
  obtain ⟨hc3, hc4, _⟩ := lowerChar_n_ne c hc2
  have hne : r.data ≠ [] := by
    intro hnil
    rw [hnil] at h3
    have hall := List.dropWhile_eq_nil_iff.mp h3.symm
    have hcmem : c ∈ cleaned := List.mem_of_mem_getLast? hc1
    have := hall c hcmem
    simp only [Bool.or_eq_true, decide_eq_true_eq] at this
    rcases this with h' | h'
    · exact hc3 h'
    · exact hc4 h'
  refine ⟨c, ?_, hc2⟩
  obtain ⟨t, ht⟩ : r.data <:+ cleaned := h3 ▸ List.dropWhile_suffix _
  rw [← hc1, ← ht, List.getLast?_append_of_ne_nil t hne]

/-! ## Normalization structure of a join with a traversal-free path -/

theorem plainSeg_spec (s : List Char) (h : plainSeg s = true) :
    s ≠ [] ∧ s ≠ ['.'] ∧ s ≠ ['.', '.'] := by
  rw [plainSeg] at h
  by_cases hc : s = [] ∨ s = ['.'] ∨ s = ['.', '.']
  · rw [if_pos hc] at h
    cases h
  · push_neg at hc
    exact hc

theorem keepSeg_of_plain (s : List Char) (h : plainSeg s = true) :
    keepSeg s = true := by
  obtain ⟨h1, h2, _⟩ := plainSeg_spec s h
  rw [keepSeg, if_neg (by simp [h1, h2])]

theorem normStep_skip (allow : Bool) (acc : List (List Char)) (s : List Char)
    (h : keepSeg s = false) : normStep allow acc s = acc := by
  rw [keepSeg] at h
  by_cases hc : s = [] ∨ s = ['.']
  · rw [normStep, if_pos hc]
  · rw [if_neg hc] at h
    cases h

theorem normStep_push (allow : Bool) (acc : List (List Char)) (s : List Char)
    (hk : keepSeg s = true) (hd : s ≠ ['.', '.']) :
    normStep allow acc s = acc ++ [s] := by
  rw [keepSeg] at hk
  by_cases hc : s = [] ∨ s = ['.']
  · rw [if_pos hc] at hk
    cases hk
  · rw [normStep, if_neg hc, if_neg hd]

theorem foldl_normStep_noDD (allow : Bool) (segs : List (List Char))
    (h : ∀ s ∈ segs, s ≠ ['.', '.']) (acc : List (List Char)) :
    segs.foldl (normStep allow) acc = acc ++ segs.filter keepSeg := by
  induction segs generalizing acc with
  | nil => simp
  | cons s ss ih =>
    have hs := h s (List.mem_cons_self s ss)
    rw [List.foldl_cons, ih (fun u hu => h u (List.mem_cons_of_mem _ hu)),
      List.filter_cons]
    by_cases hk : keepSeg s = true
    · rw [normStep_push allow acc s hk hs, if_pos hk, List.append_assoc]
      rfl
    · rw [normStep_skip allow acc s (Bool.of_not_eq_true hk),
        if_neg (by simpa using hk)]

theorem joinSegs_append (A B : List (List Char)) (hA : A ≠ []) (hB : B ≠ []) :
    joinSegs (A ++ B) = joinSegs A ++ '/' :: joinSegs B := by
  induction A with
  | nil => cases hA rfl
  | cons a A2 ih =>
    cases A2 with
    | nil =>
      cases B with
      | nil => cases hB rfl
      | cons b B2 => rw [List.singleton_append, joinSegs_cons_cons]; rfl
    | cons a2 A3 =>
      have ih2 := ih (by simp)
      rw [List.cons_append] at ih2 ⊢
      rw [List.cons_append, joinSegs_cons_cons, ih2, joinSegs_cons_cons]
      simp [List.append_assoc]

theorem splitCh_getLast (l : List Char) (c : Char) (hl : l.getLast? = some c)
    (hc : c ≠ '/') : ∃ s, (splitCh l).getLast? = some s ∧ s.getLast? = some c := by
  induction l with
  | nil => cases hl
  | cons d rest ih =>
    cases rest with
    | nil =>
      have hd : d = c := by simpa using hl
      subst hd
      refine ⟨[d], ?_, rfl⟩
      have hsp : splitCh [d] = [[d]] := by simp [splitCh, hc]
      rw [hsp]
      rfl
    | cons e rest2 =>
      have hl2 : (e :: rest2).getLast? = some c := by
        rwa [List.getLast?_cons_cons] at hl
      obtain ⟨s, h1, h2⟩ := ih hl2
      obtain ⟨t, ts, hsp⟩ := splitCh_shape (e :: rest2)
      rw [hsp] at h1
      by_cases hd : d = '/'
      · subst hd
        rw [splitCh_cons_sep, hsp]
        exact ⟨s, by rw [List.getLast?_cons_cons]; exact h1, h2⟩
      · rw [splitCh_cons_ne d _ hd t ts hsp]
        cases ts with
        | nil =>
          have ht : t = s := by simpa using h1
          subst ht
          refine ⟨d :: t, rfl, ?_⟩
          cases t with
          | nil => cases h2
          | cons u us => rw [List.getLast?_cons_cons]; exact h2
        | cons w ws =>
          rw [List.getLast?_cons_cons] at h1
          exact ⟨s, by rw [List.getLast?_cons_cons]; exact h1, h2⟩

theorem pathNormalizeL_abs (l : List Char) (hA : headIs l '/' = true)
    (hT : ¬(l.getLast? = some '/')) :
    pathNormalizeL l = '/' :: joinSegs (normSegs false (splitCh l)) := by
  have hne : l ≠ [] := by
    intro h
    rw [h] at hA
    simp [headIs] at hA
  rw [pathNormalizeL, if_neg hne]
  simp only [hA, Bool.not_true]
  have h1 : ¬(joinSegs (normSegs false (splitCh l)) = [] ∧ true = false) := by
    simp
  rw [if_pos trivial, if_neg h1, if_neg (fun hcon => hT hcon.2)]

theorem goodRoot_inv (root : String) (h : goodRoot root = true) :
    ∃ s ss, splitCh root.data = [] :: s :: ss ∧
      ∀ u ∈ s :: ss, plainSeg u = true := by
  unfold goodRoot at h
  obtain ⟨t0, ts0, heq0⟩ := splitCh_shape root.data
  rw [heq0] at h
  cases t0 with
  | cons x xs => simp at h
  | nil =>
    cases ts0 with
    | nil => simp at h
    | cons s ss => exact ⟨s, ss, heq0, List.all_eq_true.mp h⟩

theorem join_confined (root r : String) (hroot : goodRoot root = true)
    (hnoDD : hasDD r.data = false)
    (hlast : ∃ c, r.data.getLast? = some c ∧ lowerChar c = 'n') :
    ∃ t : String, pathJoin2 root r = root ++ "/" ++ t ∧ hasDD t.data = false := by
  obtain ⟨c, hcl, hcn⟩ := hlast
  obtain ⟨hc1, _, hc3⟩ := lowerChar_n_ne c hcn
  obtain ⟨s, ss, heq, hplain⟩ := goodRoot_inv root hroot
  have hrootdata : root.data = '/' :: joinSegs (s :: ss) := by
    conv_lhs => rw [← joinSegs_splitCh root.data]
    rw [heq, joinSegs_cons_cons]
    rfl
  have hrne : r.data ≠ [] := by
    intro hnil
    rw [hnil] at hcl
    cases hcl
  have hrootne : root.data ≠ [] := by rw [hrootdata]; simp
  have hslash : ("/" : String).data = ['/'] := rfl
  have joined : (root ++ "/" ++ r).data = root.data ++ '/' :: r.data := by
    rw [String.data_append, String.data_append, hslash, List.append_assoc]
    rfl
  have hsplit : splitCh ((root ++ "/" ++ r).data)
      = ([] :: s :: ss) ++ splitCh r.data := by
    rw [joined, splitCh_append, heq]
  have hseg_ne : ∀ u ∈ splitCh r.data, u ≠ ['.', '.'] := by
    intro u hu hequ
    have hdd := splitCh_noDD r.data u hnoDD hu
    rw [hequ] at hdd
    simp [hasDD, headIs] at hdd
  obtain ⟨sl, hsl1, hsl2⟩ := splitCh_getLast r.data c hcl hc1
  have hslmem : sl ∈ splitCh r.data := List.mem_of_mem_getLast? hsl1
  have hslne : sl ≠ [] := by
    intro h0
    rw [h0] at hsl2
    cases hsl2
  have hsldot : sl ≠ ['.'] := by
    intro h0
    rw [h0] at hsl2
    have h9 : '.' = c := by simpa using hsl2
    exact hc3 h9.symm
  have hkeep : keepSeg sl = true := by
    rw [keepSeg, if_neg (by simp [hslne, hsldot])]
  have hrsegs_ne : (splitCh r.data).filter keepSeg ≠ [] :=
    List.ne_nil_of_mem (List.mem_filter.mpr ⟨hslmem, hkeep⟩)
  have hA : headIs ((root ++ "/" ++ r).data) '/' = true := by
    rw [joined, hrootdata]
    simp [headIs]
  have hT : ¬((root ++ "/" ++ r).data.getLast? = some '/') := by
    rw [joined, List.getLast?_append_of_ne_nil _ (List.cons_ne_nil _ _),
      show ('/' :: r.data) = ['/'] ++ r.data from rfl,
      List.getLast?_append_of_ne_nil _ hrne, hcl]
    intro hcon
    exact hc1 (Option.some_inj.mp hcon)
  have hfold : normSegs false (splitCh ((root ++ "/" ++ r).data))
      = (s :: ss) ++ (splitCh r.data).filter keepSeg := by
    rw [hsplit, normSegs, List.foldl_append]
    have hinner : List.foldl (normStep false) [] ([] :: s :: ss) = s :: ss := by
      rw [List.foldl_cons]
      have h0 : normStep false [] [] = [] := by simp [normStep]
      rw [h0, foldl_normStep_noDD false (s :: ss)
        (fun u hu => (plainSeg_spec u (hplain u hu)).2.2) []]
      rw [List.nil_append, List.filter_eq_self.mpr
        (fun u hu => keepSeg_of_plain u (hplain u hu))]
    rw [hinner, foldl_normStep_noDD false _ hseg_ne _]
  have hnorm : pathNormalizeL ((root ++ "/" ++ r).data)
      = root.data ++ '/' :: joinSegs ((splitCh r.data).filter keepSeg) := by
    rw [pathNormalizeL_abs _ hA hT, hfold,
      joinSegs_append _ _ (by simp) hrsegs_ne, hrootdata, ← List.cons_append]
  refine ⟨String.mk (joinSegs ((splitCh r.data).filter keepSeg)), ?_, ?_⟩
  · rw [pathJoin2, if_neg (fun hcon => hrootne hcon.1), if_neg hrootne,
      if_neg hrne, pathNormalize, hnorm]
    apply String.ext
    rw [String.data_append, String.data_append, hslash, List.append_assoc]
    rfl
  · exact hasDD_joinSegs_false _ (fun u hu =>
      splitCh_noDD r.data u hnoDD (List.mem_of_mem_filter hu))

/-! ## Claim theorems for the path sanitizer -/

/-- C1: for every input string, if sanitize returns a non-null result,
then joining the Storage Root with that result yields (already in
resolved, normalized absolute form, since path.join normalizes) a
location inside the Storage Root: the root followed by a separator is a
prefix of the joined path, and the remainder is free of ".." so the
location cannot escape.  This joined path is exactly the filePath both
readOp and writeOp use for every storage operation. -/
theorem C1_sanitize_join_confined (root p r : String)
    (hroot : goodRoot root = true) (h : sanitize p = some r) :
    ∃ t : String, pathJoin2 root r = root ++ "/" ++ t ∧ hasDD t.data = false :=
  join_confined root r hroot (sanitize_noDD p r h) (sanitize_getLast p r h)

/-- Witness for C1 at a concrete root and request path. -/
theorem C1_sanitize_join_confined_witness :
    goodRoot "/srv/data" = true ∧
      sanitize "/decks/a.json" = some "decks/a.json" ∧
      ∃ t : String, pathJoin2 "/srv/data" "decks/a.json"
          = "/srv/data" ++ "/" ++ t ∧ hasDD t.data = false :=
  ⟨by decide, by decide,
    C1_sanitize_join_confined "/srv/data" "/decks/a.json" "decks/a.json"
      (by decide) (by decide)⟩

/-- C2: for every input with any number of leading "../" segments,
whenever sanitize accepts, the result contains no ".." path segment and
joining it to the Storage Root stays confined under the root. -/
theorem C2_leading_parents (n : Nat) (root p r : String)
    (hroot : goodRoot root = true)
    (h : sanitize (leadingDots n ++ p) = some r) :
    (∀ s ∈ splitCh r.data, s ≠ ['.', '.']) ∧
      ∃ t : String, pathJoin2 root r = root ++ "/" ++ t := by
  constructor
  · intro s hs heq
    have hdd := splitCh_noDD _ s (sanitize_noDD _ r h) hs
    rw [heq] at hdd
    simp [hasDD, headIs] at hdd
  · obtain ⟨t, h1, _⟩ := join_confined root r hroot
      (sanitize_noDD _ r h) (sanitize_getLast _ r h)
    exact ⟨t, h1⟩

/-- Witness for C2 with two leading parent segments. -/
theorem C2_leading_parents_witness :
    goodRoot "/data" = true ∧
      sanitize (leadingDots 2 ++ "x.json") = some "x.json" ∧
      ((∀ s ∈ splitCh ("x.json" : String).data, s ≠ ['.', '.']) ∧
        ∃ t : String, pathJoin2 "/data" "x.json" = "/data" ++ "/" ++ t) :=
  ⟨by decide, by decide,
    C2_leading_parents 2 "/data" "x.json" "x.json" (by decide) (by decide)⟩

/-- C3: when the normalized form of the input, lower-cased, does not end
in ".json", sanitize rejects the input. -/
theorem C3_extension_reject (p : String)
    (h : endsJsonLower ((pathNormalize p).data) = false) :
    sanitize p = none := by
  rw [sanitize]
  cases hs : sanitizeL p.data with
  | none => rfl
  | some rl =>
    exfalso
    obtain ⟨_, h2, _⟩ := sanitizeL_parts p.data rl hs
    have h3 := endsJsonLower_of_suffix _ _
      (stripDD_suffix (pathNormalizeL p.data)) h2
    rw [show (pathNormalize p).data = pathNormalizeL p.data from rfl, h3] at h
    cases h

/-- Witness for C3 at a ".txt" path. -/
theorem C3_extension_reject_witness :
    endsJsonLower ((pathNormalize "/a.txt").data) = false ∧
      sanitize "/a.txt" = none :=
  ⟨by decide, C3_extension_reject "/a.txt" (by decide)⟩

/-- C8: the basename-less input ".json" is accepted by sanitize and
returned unchanged, because only the suffix is checked. -/
theorem C8_bare_extension_accepted : sanitize ".json" = some ".json" := by
  decide

/-- C9: whenever the input, after normalization and the leading
parent-segment strip, still contains the two-character substring ".."
anywhere, sanitize rejects it; the rejection is by substring, not by
segment (the witness "a..b.json" has no ".." segment at all). -/
theorem C9_substring_reject (p : String)
    (h : hasDD (stripDD (pathNormalizeL p.data)) = true) :
    sanitize p = none := by
  unfold sanitize sanitizeL
  rw [if_pos h]
  rfl

/-- Witness for C9 at a filename whose ".." lies inside one segment. -/
theorem C9_substring_reject_witness :
    hasDD (stripDD (pathNormalizeL ("a..b.json" : String).data)) = true ∧
      sanitize "a..b.json" = none :=
  ⟨by decide, C9_substring_reject "a..b.json" (by decide)⟩

/-! ## Digits and integer numerals -/

theorem natDigitsAux_irrel (f1 : Nat) : ∀ f2 n, n < f1 → n < f2 →
    natDigitsAux f1 n = natDigitsAux f2 n := by
  induction f1 with
  | zero => intro f2 n h1; omega
  | succ f1 ih =>
    intro f2 n h1 h2
    cases f2 with
    | zero => omega
    | succ f2 =>
      rw [natDigitsAux, natDigitsAux]
      by_cases h10 : n < 10
      · rw [if_pos h10, if_pos h10]
      · rw [if_neg h10, if_neg h10, ih f2 (n / 10) (by omega) (by omega)]

theorem natDigits_eq (n : Nat) :
    natDigits n = if n < 10 then [digitChar n]
      else natDigits (n / 10) ++ [digitChar (n % 10)] := by
  rw [natDigits, natDigitsAux]
  by_cases h10 : n < 10
  · rw [if_pos h10, if_pos h10]
  · rw [if_neg h10, if_neg h10, natDigits,
      natDigitsAux_irrel n (n / 10 + 1) (n / 10) (by omega) (by omega)]

theorem digitChar_isDigit : ∀ d, d < 10 → (digitChar d).isDigit = true := by
  decide

theorem digitChar_toNat : ∀ d, d < 10 → (digitChar d).toNat - 48 = d := by
  decide

theorem digitChar_ne_zero : ∀ d, d < 10 → 0 < d → digitChar d ≠ '0' := by
  decide

theorem natDigits_ne_nil (n : Nat) : natDigits n ≠ [] := by
  rw [natDigits_eq]
  by_cases h10 : n < 10
  · rw [if_pos h10]
    simp
  · rw [if_neg h10]
    simp

theorem natDigits_all_digit (n : Nat) :
    ∀ c ∈ natDigits n, c.isDigit = true := by
  induction n using Nat.strong_induction_on with
  | _ n ih =>
    rw [natDigits_eq]
    by_cases h10 : n < 10
    · rw [if_pos h10]
      intro c hc
      rw [List.mem_singleton.mp hc]
      exact digitChar_isDigit n h10
    · rw [if_neg h10]
      intro c hc
      rcases List.mem_append.mp hc with h | h
      · exact ih (n / 10) (by omega) c h
      · rw [List.mem_singleton.mp h]
        exact digitChar_isDigit (n % 10) (by omega)

theorem natDigits_head_ne_zero (n : Nat) (hn : 1 ≤ n) :
    ∀ c, (natDigits n).head? = some c → c ≠ '0' := by
  induction n using Nat.strong_induction_on with
  | _ n ih =>
    rw [natDigits_eq]
    by_cases h10 : n < 10
    · rw [if_pos h10]
      intro c hc
      rw [Option.some_inj.mp hc.symm]
      exact digitChar_ne_zero n h10 hn
    · rw [if_neg h10]
      intro c hc
      rw [List.head?_append_of_ne_nil _ (natDigits_ne_nil (n / 10))] at hc
      exact ih (n / 10) (by omega) (by omega) c hc

theorem digitsToNat_natDigits (n : Nat) : digitsToNat (natDigits n) = n := by
  induction n using Nat.strong_induction_on with
  | _ n ih =>
    rw [natDigits_eq]
    by_cases h10 : n < 10
    · rw [if_pos h10]
      show 0 * 10 + ((digitChar n).toNat - 48) = n
      rw [Nat.zero_mul, Nat.zero_add, digitChar_toNat n h10]
    · rw [if_neg h10, digitsToNat, List.foldl_append]
      show (digitsToNat (natDigits (n / 10))) * 10
          + ((digitChar (n % 10)).toNat - 48) = n
      rw [ih (n / 10) (by omega), digitChar_toNat (n % 10) (by omega)]
      omega

theorem isDigit_ne (c x : Char) (h : c.isDigit = true)
    (hx : x.isDigit = false) : c ≠ x := by
  intro heq
  rw [heq, hx] at h
  cases h

theorem isDigit_not_ws (c : Char) (h : c.isDigit = true) :
    isJsonWs c = false := by
  rw [isJsonWs]
  have h1 : c ≠ ' ' := isDigit_ne c ' ' h (by decide)
  have h2 : c ≠ '\t' := isDigit_ne c '\t' h (by decide)
  have h3 : c ≠ '\n' := isDigit_ne c '\n' h (by decide)
  have h4 : c ≠ '\r' := isDigit_ne c '\r' h (by decide)
  simp [h1, h2, h3, h4]

theorem spanDigits_exact (ds rest : List Char)
    (hd : ∀ c ∈ ds, c.isDigit = true) (hr : restOK rest = true) :
    spanDigits (ds ++ rest) = (ds, rest) := by
  induction ds with
  | nil =>
    cases rest with
    | nil => rfl
    | cons c r =>
      simp only [restOK, Bool.not_eq_true'] at hr
      rw [List.nil_append, spanDigits, if_neg (by simp [hr])]
  | cons d ds2 ih =>
    rw [List.cons_append, spanDigits,
      if_pos (hd d (List.mem_cons_self d ds2)),
      ih (fun c hc => hd c (List.mem_cons_of_mem d hc))]

theorem headIs_run_false (rest : List Char) (hr : restOK rest = true) :
    (headIs rest '0' || headIs rest '1' || headIs rest '2' || headIs rest '3' ||
     headIs rest '4' || headIs rest '5' || headIs rest '6' || headIs rest '7' ||
     headIs rest '8' || headIs rest '9') = false := by
  cases rest with
  | nil => rfl
  | cons c r =>
    simp only [restOK, Bool.not_eq_true'] at hr
    have hne : ∀ x : Char, x.isDigit = true → headIs (c :: r) x = false := by
      intro x hx
      rw [headIs]
      simp only [decide_eq_false_iff_not]
      intro heq
      rw [heq, hx] at hr
      cases hr
    rw [hne '0' (by decide), hne '1' (by decide), hne '2' (by decide),
      hne '3' (by decide), hne '4' (by decide), hne '5' (by decide),
      hne '6' (by decide), hne '7' (by decide), hne '8' (by decide),
      hne '9' (by decide)]
    rfl

theorem parseNat_natDigits (n : Nat) (rest : List Char)
    (hr : restOK rest = true) :
    parseNat (natDigits n ++ rest) = some (n, rest) := by
  by_cases hz : n = 0
  · subst hz
    have h0 : natDigits 0 = ['0'] := rfl
    rw [h0, List.cons_append, List.nil_append, parseNat, if_pos rfl,
      headIs_run_false rest hr]
    rfl
  · obtain ⟨c0, ds, hshape⟩ : ∃ c0 ds, natDigits n = c0 :: ds := by
      cases hnd : natDigits n with
      | nil => exact absurd hnd (natDigits_ne_nil n)
      | cons a b => exact ⟨a, b, rfl⟩
    have hc0 : (natDigits n).head? = some c0 := by rw [hshape]; rfl
    have hc0z : c0 ≠ '0' := natDigits_head_ne_zero n (by omega) c0 hc0
    have hc0d : c0.isDigit = true :=
      natDigits_all_digit n c0 (by rw [hshape]; exact List.mem_cons_self _ _)
    rw [hshape, List.cons_append, parseNat, if_neg hc0z, if_pos hc0d]
    have hspan : spanDigits (c0 :: (ds ++ rest)) = (c0 :: ds, rest) := by
      rw [← List.cons_append]
      exact spanDigits_exact (c0 :: ds) rest
        (by rw [← hshape]; exact natDigits_all_digit n) hr
    rw [hspan]
    have hval : digitsToNat (c0 :: ds) = n := by
      rw [← hshape]
      exact digitsToNat_natDigits n
    show some (digitsToNat (c0 :: ds), rest) = some (n, rest)
    rw [hval]

theorem parseNum_numChars (n : Int) (rest : List Char)
    (hr : restOK rest = true) :
    parseNum (numChars n ++ rest) = some (n, rest) := by
  rw [numChars]
  by_cases hneg : n < 0
  · rw [if_pos hneg, List.cons_append, parseNum, if_pos rfl,
      parseNat_natDigits n.natAbs rest hr, Option.map_some']
    have : -(n.natAbs : Int) = n := by omega
    rw [this]
  · rw [if_neg hneg]
    obtain ⟨c0, ds, hshape⟩ : ∃ c0 ds, natDigits n.toNat = c0 :: ds := by
      cases hnd : natDigits n.toNat with
      | nil => exact absurd hnd (natDigits_ne_nil n.toNat)
      | cons a b => exact ⟨a, b, rfl⟩
    have hc0d : c0.isDigit = true :=
      natDigits_all_digit n.toNat c0
        (by rw [hshape]; exact List.mem_cons_self _ _)
    rw [hshape, List.cons_append, parseNum,
      if_neg (isDigit_ne c0 '-' hc0d (by decide)), ← List.cons_append,
      ← hshape, parseNat_natDigits n.toNat rest hr, Option.map_some']
    have : (n.toNat : Int) = n := by omega
    rw [this]

/-! ## String-literal escaping round trip -/

theorem hexDigitChar_hexVal : ∀ a, a < 16 → hexVal (hexDigitChar a) = some a := by
  decide

theorem parseStrBody_escape (c : Char) (tail : List Char) :
    parseStrBody (escapeChar c ++ tail) = consFst c (parseStrBody tail) := by
  rw [escapeChar]
  by_cases h1 : c = '"'
  · rw [if_pos h1, h1, parseStrBody.eq_def]
    simp
  rw [if_neg h1]
  by_cases h2 : c = '\\'
  · rw [if_pos h2, h2, parseStrBody.eq_def]
    simp
  rw [if_neg h2]
  by_cases h3 : c = '\x08'
  · rw [if_pos h3, h3, parseStrBody.eq_def]
    simp
  rw [if_neg h3]
  by_cases h4 : c = '\x09'
  · rw [if_pos h4, h4, parseStrBody.eq_def]
    simp
  rw [if_neg h4]
  by_cases h5 : c = '\x0a'
  · rw [if_pos h5, h5, parseStrBody.eq_def]
    simp
  rw [if_neg h5]
  by_cases h6 : c = '\x0c'
  · rw [if_pos h6, h6, parseStrBody.eq_def]
    simp
  rw [if_neg h6]
  by_cases h7 : c = '\x0d'
  · rw [if_pos h7, h7, parseStrBody.eq_def]
    simp
  rw [if_neg h7]
  by_cases h8 : c.toNat < 32
  · rw [if_pos h8]
    have hhi : hexVal (hexDigitChar (c.toNat / 16)) = some (c.toNat / 16) :=
      hexDigitChar_hexVal (c.toNat / 16) (by omega)
    have hlo : hexVal (hexDigitChar (c.toNat % 16)) = some (c.toNat % 16) :=
      hexDigitChar_hexVal (c.toNat % 16) (by omega)
    have h0 : hexVal '0' = some 0 := by decide
    rw [parseStrBody.eq_def]
    simp only [List.cons_append, List.nil_append]
    simp [hhi, hlo, h0]
    rw [if_pos (Or.inl
      (show c.toNat / 16 * 16 + c.toNat % 16 < 55296 by omega))]
    have hc2 : c.toNat / 16 * 16 + c.toNat % 16 = c.toNat := by omega
    rw [hc2, Char.ofNat_toNat]
  · rw [if_neg h8, List.cons_append, List.nil_append, parseStrBody.eq_def]
    simp [h1, h2, h8]

theorem parseStrBody_escBody (cs tail : List Char) :
    parseStrBody (cs.flatMap escapeChar ++ '"' :: tail) = some (cs, tail) := by
  induction cs with
  | nil =>
    rw [List.flatMap_nil, List.nil_append, parseStrBody.eq_def]
    simp
  | cons c cs2 ih =>
    rw [List.flatMap_cons, List.append_assoc, parseStrBody_escape c _, ih]
    rfl

/-! ## Whitespace skipping and token-head facts -/

theorem ws_not_digit (c : Char) (h : isJsonWs c = true) : c.isDigit = false := by
  simp only [isJsonWs, Bool.or_eq_true, decide_eq_true_eq] at h
  rcases h with ((h | h) | h) | h <;> (subst h; decide)

theorem skipWs_cons_false (c : Char) (l : List Char) (h : isJsonWs c = false) :
    skipWs (c :: l) = c :: l := by
  simp [skipWs, List.dropWhile_cons, h]

theorem allWs_cons (c : Char) (w : List Char) (h : allWs (c :: w) = true) :
    isJsonWs c = true ∧ allWs w = true := by
  simpa [allWs] using h

theorem skipWs_ws_append (w l : List Char) (hw : allWs w = true) :
    skipWs (w ++ l) = skipWs l := by
  induction w with
  | nil => rfl
  | cons c w2 ih =>
    obtain ⟨h1, h2⟩ := allWs_cons c w2 hw
    rw [List.cons_append, skipWs, List.dropWhile_cons, if_pos h1]
    exact ih h2

theorem restOK_cons (c : Char) (r : List Char) (h : c.isDigit = false) :
    restOK (c :: r) = true := by
  simp [restOK, h]

theorem restOK_ws_cons (w : List Char) (hw : allWs w = true) (b : Char)
    (hb : b.isDigit = false) (rest : List Char) :
    restOK (w ++ b :: rest) = true := by
  cases w with
  | nil => exact restOK_cons b rest hb
  | cons c w2 =>
    obtain ⟨h1, _⟩ := allWs_cons c w2 hw
    exact restOK_cons c _ (ws_not_digit c h1)

theorem digit_head_facts (c : Char) (h : c.isDigit = true) :
    isJsonWs c = false ∧ c ≠ ']' ∧ c ≠ '}' ∧ c ≠ ',' :=
  ⟨isDigit_not_ws c h, isDigit_ne c ']' h (by decide),
    isDigit_ne c '}' h (by decide), isDigit_ne c ',' h (by decide)⟩

theorem strJ_shape (gap ind : List Char) (v : Json) :
    ∃ c cs, strJ gap ind v = c :: cs ∧ isJsonWs c = false ∧
      c ≠ ']' ∧ c ≠ '}' ∧ c ≠ ',' := by
  cases v with
  | null =>
    have h : strJ gap ind .null = 'n' :: ['u', 'l', 'l'] := by simp [strJ]
    exact ⟨'n', _, h, by decide, by decide, by decide, by decide⟩
  | bool b =>
    cases b with
    | true =>
      have h : strJ gap ind (.bool true) = 't' :: ['r', 'u', 'e'] := by
        simp [strJ]
      exact ⟨'t', _, h, by decide, by decide, by decide, by decide⟩
    | false =>
      have h : strJ gap ind (.bool false) = 'f' :: ['a', 'l', 's', 'e'] := by
        simp [strJ]
      exact ⟨'f', _, h, by decide, by decide, by decide, by decide⟩
  | num n =>
    rw [show strJ gap ind (.num n) = numChars n by simp [strJ], numChars]
    by_cases hneg : n < 0
    · exact ⟨'-', _, by rw [if_pos hneg], by decide, by decide, by decide, by decide⟩
    · rw [if_neg hneg]
      obtain ⟨c0, ds, hshape⟩ : ∃ c0 ds, natDigits n.toNat = c0 :: ds := by
        cases hnd : natDigits n.toNat with
        | nil => exact absurd hnd (natDigits_ne_nil n.toNat)
        | cons a b => exact ⟨a, b, rfl⟩
      have hd : c0.isDigit = true := natDigits_all_digit n.toNat c0
        (by rw [hshape]; exact List.mem_cons_self _ _)
      obtain ⟨f1, f2, f3, f4⟩ := digit_head_facts c0 hd
      exact ⟨c0, ds, hshape, f1, f2, f3, f4⟩
  | str s =>
    have h : strJ gap ind (.str s) = '"' :: (escBody s ++ ['"']) := by
      simp [strJ, quoteString]
    exact ⟨'"', _, h, by decide, by decide, by decide, by decide⟩
  | arr xs =>
    cases xs with
    | nil =>
      have h : strJ gap ind (.arr []) = '[' :: [']'] := by simp [strJ]
      exact ⟨'[', _, h, by decide, by decide, by decide, by decide⟩
    | cons x xs2 =>
      have h : strJ gap ind (.arr (x :: xs2)) = '[' :: (openSep gap ind
          ++ (strJL gap (ind ++ gap) (x :: xs2)
            ++ (closeSep gap ind ++ [']']))) := by
        simp [strJ]
      exact ⟨'[', _, h, by decide, by decide, by decide, by decide⟩
  | obj ms =>
    cases ms with
    | nil =>
      have h : strJ gap ind (.obj []) = '{' :: ['}'] := by simp [strJ]
      exact ⟨'{', _, h, by decide, by decide, by decide, by decide⟩
    | cons m ms2 =>
      have h : strJ gap ind (.obj (m :: ms2)) = '{' :: (openSep gap ind
          ++ (strJM gap (ind ++ gap) (m :: ms2)
            ++ (closeSep gap ind ++ ['}']))) := by
        simp [strJ]
      exact ⟨'{', _, h, by decide, by decide, by decide, by decide⟩

theorem skipWs_strJ (gap ind : List Char) (v : Json) (X : List Char) :
    skipWs (strJ gap ind v ++ X) = strJ gap ind v ++ X := by
  obtain ⟨c, cs, h1, h2, _⟩ := strJ_shape gap ind v
  rw [h1, List.cons_append, skipWs_cons_false c _ h2]

theorem headIs_strJ_ne (gap ind : List Char) (v : Json) (X : List Char)
    (x : Char) (hx : x = ']' ∨ x = '}') :
    headIs (strJ gap ind v ++ X) x = false := by
  obtain ⟨c, cs, h1, _, h3, h4, _⟩ := strJ_shape gap ind v
  rw [h1, List.cons_append, headIs]
  rcases hx with rfl | rfl
  · simpa using h3
  · simpa using h4

theorem jsize_pos (v : Json) : 1 ≤ jsize v := by
  cases v <;> simp [jsize]

/-! ## One-step equations for the parser -/

theorem parseVal_succ (fuel : Nat) (l : List Char) :
    parseVal (fuel + 1) l =
      match skipWs l with
      | [] => none
      | c :: r =>
        if c = '"' then
          (parseStrBody r).map (fun p => (.str (String.mk p.1), p.2))
        else if c = '{' then
          let r2 := skipWs r
          if headIs r2 '}' then some (.obj [], r2.tail)
          else (parseMembers fuel r2).map (fun p => (.obj p.1, p.2))
        else if c = '[' then
          let r2 := skipWs r
          if headIs r2 ']' then some (.arr [], r2.tail)
          else (parseElems fuel r2).map (fun p => (.arr p.1, p.2))
        else if c = 't' then
          match r with
          | 'r' :: 'u' :: 'e' :: r2 => some (.bool true, r2)
          | _ => none
        else if c = 'f' then
          match r with
          | 'a' :: 'l' :: 's' :: 'e' :: r2 => some (.bool false, r2)
          | _ => none
        else if c = 'n' then
          match r with
          | 'u' :: 'l' :: 'l' :: r2 => some (.null, r2)
          | _ => none
        else (parseNum (c :: r)).map (fun p => (.num p.1, p.2)) := rfl

theorem parseElems_succ (fuel : Nat) (l : List Char) :
    parseElems (fuel + 1) l =
      match parseVal fuel l with
      | none => none
      | some (v, r) =>
        match skipWs r with
        | [] => none
        | c :: r3 =>
          if c = ',' then (parseElems fuel r3).map (fun p => (v :: p.1, p.2))
          else if c = ']' then some ([v], r3)
          else none := rfl

theorem parseMembers_succ (fuel : Nat) (l : List Char) :
    parseMembers (fuel + 1) l =
      match skipWs l with
      | [] => none
      | c :: r =>
        if c = '"' then
          match parseStrBody r with
          | none => none
          | some (k, r2) =>
            match skipWs r2 with
            | [] => none
            | c2 :: r4 =>
              if c2 = ':' then
                match parseVal fuel r4 with
                | none => none
                | some (v, r5) =>
                  match skipWs r5 with
                  | [] => none
                  | c3 :: r7 =>
                    if c3 = ',' then
                      (parseMembers fuel r7).map
                        (fun p => ((String.mk k, v) :: p.1, p.2))
                    else if c3 = '}' then some ([(String.mk k, v)], r7)
                    else none
              else none
        else none := rfl

/-! ## Leading whitespace does not change a parse -/

theorem parseVal_ws (fuel : Nat) (pre l : List Char) (hw : allWs pre = true) :
    parseVal fuel (pre ++ l) = parseVal fuel l := by
  cases fuel with
  | zero => rfl
  | succ fuel =>
    rw [parseVal_succ, parseVal_succ, skipWs_ws_append pre l hw]

theorem parseElems_ws (fuel : Nat) (pre l : List Char) (hw : allWs pre = true) :
    parseElems fuel (pre ++ l) = parseElems fuel l := by
  cases fuel with
  | zero => rfl
  | succ fuel =>
    rw [parseElems_succ, parseElems_succ, parseVal_ws fuel pre l hw]

theorem parseMembers_ws (fuel : Nat) (pre l : List Char)
    (hw : allWs pre = true) :
    parseMembers fuel (pre ++ l) = parseMembers fuel l := by
  cases fuel with
  | zero => rfl
  | succ fuel =>
    rw [parseMembers_succ, parseMembers_succ, skipWs_ws_append pre l hw]

/-! ## Separators are whitespace -/

theorem allWs_append (a b : List Char) (ha : allWs a = true)
    (hb : allWs b = true) : allWs (a ++ b) = true := by
  simp [allWs] at ha hb ⊢
  exact ⟨ha, hb⟩

theorem allWs_openSep (gap ind : List Char) (hg : allWs gap = true)
    (hi : allWs ind = true) : allWs (openSep gap ind) = true := by
  rw [openSep]
  by_cases h : gap = []
  · rw [if_pos h]
    rfl
  · rw [if_neg h]
    have := allWs_append ind gap hi hg
    simp [allWs, isJsonWs] at this ⊢
    exact this

theorem allWs_closeSep (gap ind : List Char) (hi : allWs ind = true) :
    allWs (closeSep gap ind) = true := by
  rw [closeSep]
  by_cases h : gap = []
  · rw [if_pos h]
    rfl
  · rw [if_neg h]
    simp [allWs, isJsonWs] at hi ⊢
    exact hi

theorem allWs_elemSep (gap ind2 : List Char) (hi : allWs ind2 = true) :
    allWs (elemSep gap ind2) = true := by
  rw [elemSep]
  by_cases h : gap = []
  · rw [if_pos h]
    rfl
  · rw [if_neg h]
    simp [allWs, isJsonWs] at hi ⊢
    exact hi

theorem allWs_colonSep (gap : List Char) : allWs (colonSep gap) = true := by
  rw [colonSep]
  by_cases h : gap = []
  · rw [if_pos h]
    rfl
  · rw [if_neg h]
    rfl

/-! ## Head decomposition of serialized lists and members -/

theorem strJL_cons (gap ind2 : List Char) (x : Json) (xs : List Json) :
    ∃ T, strJL gap ind2 (x :: xs) = strJ gap ind2 x ++ T := by
  cases xs with
  | nil => exact ⟨[], by simp [strJL]⟩
  | cons y ys =>
    exact ⟨',' :: (elemSep gap ind2 ++ strJL gap ind2 (y :: ys)),
      by simp [strJL]⟩

theorem skipWs_strJL (gap ind2 : List Char) (x : Json) (xs : List Json)
    (X : List Char) :
    skipWs (strJL gap ind2 (x :: xs) ++ X) = strJL gap ind2 (x :: xs) ++ X := by
  obtain ⟨T, hT⟩ := strJL_cons gap ind2 x xs
  rw [hT, List.append_assoc, skipWs_strJ, ← List.append_assoc]

theorem headIs_strJL_ne (gap ind2 : List Char) (x : Json) (xs : List Json)
    (X : List Char) (c : Char) (hc : c = ']' ∨ c = '}') :
    headIs (strJL gap ind2 (x :: xs) ++ X) c = false := by
  obtain ⟨T, hT⟩ := strJL_cons gap ind2 x xs
  rw [hT, List.append_assoc]
  exact headIs_strJ_ne gap ind2 x (T ++ X) c hc

theorem strJM_cons (gap ind2 : List Char) (m : String × Json)
    (ms : List (String × Json)) :
    ∃ T, strJM gap ind2 (m :: ms)
      = '"' :: (escBody m.1 ++ ('"' :: (':' :: (colonSep gap
        ++ (strJ gap ind2 m.2 ++ T))))) := by
  cases ms with
  | nil =>
    refine ⟨[], ?_⟩
    rw [show strJM gap ind2 [m]
        = quoteString m.1 ++ ':' :: colonSep gap ++ strJ gap ind2 m.2 from by
      simp [strJM]]
    simp [quoteString, List.append_assoc]
  | cons m2 ms2 =>
    refine ⟨',' :: elemSep gap ind2 ++ strJM gap ind2 (m2 :: ms2), ?_⟩
    rw [show strJM gap ind2 (m :: m2 :: ms2)
        = quoteString m.1 ++ ':' :: colonSep gap ++ strJ gap ind2 m.2
          ++ ',' :: elemSep gap ind2 ++ strJM gap ind2 (m2 :: ms2) from by
      simp [strJM]]
    simp [quoteString, List.append_assoc]

theorem parseStrBody_quote (s : String) (tail : List Char) :
    parseStrBody (escBody s ++ '"' :: tail) = some (s.data, tail) :=
  parseStrBody_escBody s.data tail

theorem rt_all (fuel : Nat) :
    (∀ gap ind (v : Json) rest, allWs gap = true → allWs ind = true →
      restOK rest = true → jsize v ≤ fuel →
      parseVal fuel (strJ gap ind v ++ rest) = some (v, rest)) ∧
    (∀ gap ind (xs : List Json) w rest, allWs gap = true →
      allWs ind = true → allWs w = true → restOK rest = true → xs ≠ [] →
      jsizeL xs ≤ fuel →
      parseElems fuel (strJL gap ind xs ++ (w ++ ']' :: rest))
        = some (xs, rest)) ∧
    (∀ gap ind (ms : List (String × Json)) w rest, allWs gap = true →
      allWs ind = true → allWs w = true → restOK rest = true → ms ≠ [] →
      jsizeM ms ≤ fuel →
      parseMembers fuel (strJM gap ind ms ++ (w ++ '}' :: rest))
        = some (ms, rest)) := by
  induction fuel with
  | zero =>
    refine ⟨?_, ?_, ?_⟩
    · intro gap ind v rest _ _ _ hs
      have := jsize_pos v
      omega
    · intro gap ind xs w rest _ _ _ _ hne hs
      cases xs with
      | nil => cases hne rfl
      | cons x xs2 =>
        have := jsize_pos x
        simp only [jsizeL] at hs
        omega
    · intro gap ind ms w rest _ _ _ _ hne hs
      cases ms with
      | nil => cases hne rfl
      | cons m ms2 =>
        have := jsize_pos m.2
        simp only [jsizeM] at hs
        omega
  | succ fuel ih =>
    obtain ⟨ihV, ihE, ihM⟩ := ih
    refine ⟨?_, ?_, ?_⟩
    · intro gap ind v rest hg hi hr hs
      cases v with
      | null =>
        rw [show strJ gap ind .null = ['n', 'u', 'l', 'l'] from by simp [strJ],
          parseVal_succ,
          show (['n', 'u', 'l', 'l'] ++ rest : List Char)
            = 'n' :: 'u' :: 'l' :: 'l' :: rest from rfl,
          skipWs_cons_false _ _ (by decide)]
        simp
      | bool b =>
        cases b with
        | true =>
          rw [show strJ gap ind (.bool true) = ['t', 'r', 'u', 'e'] from by
              simp [strJ],
            parseVal_succ,
            show (['t', 'r', 'u', 'e'] ++ rest : List Char)
              = 't' :: 'r' :: 'u' :: 'e' :: rest from rfl,
            skipWs_cons_false _ _ (by decide)]
          simp
        | false =>
          rw [show strJ gap ind (.bool false) = ['f', 'a', 'l', 's', 'e'] from by
              simp [strJ],
            parseVal_succ,
            show (['f', 'a', 'l', 's', 'e'] ++ rest : List Char)
              = 'f' :: 'a' :: 'l' :: 's' :: 'e' :: rest from rfl,
            skipWs_cons_false _ _ (by decide)]
          simp
      | num n =>
        rw [show strJ gap ind (.num n) = numChars n from by simp [strJ]]
        obtain ⟨c0, tl, hshape, hcls⟩ :
            ∃ c0 tl, numChars n = c0 :: tl ∧ (c0 = '-' ∨ c0.isDigit = true) := by
          rw [numChars]
          by_cases hneg : n < 0
          · rw [if_pos hneg]
            exact ⟨'-', natDigits n.natAbs, rfl, Or.inl rfl⟩
          · rw [if_neg hneg]
            cases hnd : natDigits n.toNat with
            | nil => exact absurd hnd (natDigits_ne_nil n.toNat)
            | cons a b =>
              exact ⟨a, b, rfl, Or.inr (natDigits_all_digit _ a
                (by rw [hnd]; exact List.mem_cons_self _ _))⟩
        have hnotws : isJsonWs c0 = false := by
          rcases hcls with rfl | hd
          · decide
          · exact isDigit_not_ws c0 hd
        have hne : ∀ x : Char, x.isDigit = false → x ≠ '-' → c0 ≠ x := by
          intro x hxd hxm heq
          rcases hcls with rfl | hd
          · exact hxm heq.symm
          · rw [heq, hxd] at hd
            cases hd
        have h1 : c0 ≠ '"' := hne '"' (by decide) (by decide)
        have h2 : c0 ≠ '{' := hne '{' (by decide) (by decide)
        have h3 : c0 ≠ '[' := hne '[' (by decide) (by decide)
        have h4 : c0 ≠ 't' := hne 't' (by decide) (by decide)
        have h5 : c0 ≠ 'f' := hne 'f' (by decide) (by decide)
        have h6 : c0 ≠ 'n' := hne 'n' (by decide) (by decide)
        rw [parseVal_succ, hshape, List.cons_append,
          skipWs_cons_false _ _ hnotws]
        simp only [h1, h2, h3, h4, h5, h6, if_false, ite_false, reduceIte]
        rw [← List.cons_append, ← hshape, parseNum_numChars n rest hr,
          Option.map_some']
      | str s =>
        rw [show strJ gap ind (.str s) = '"' :: (escBody s ++ ['"']) from by
            simp [strJ, quoteString],
          parseVal_succ, List.cons_append,
          skipWs_cons_false _ _ (by decide)]
        simp only [List.append_assoc, List.singleton_append]
        have hp := parseStrBody_escBody s.data (rest)
        rw [show (escBody s = s.data.flatMap escapeChar) from rfl, hp]
        simp
      | arr xs =>
        cases xs with
        | nil =>
          rw [show strJ gap ind (.arr []) = ['[', ']'] from by simp [strJ],
            parseVal_succ,
            show ((['[', ']'] : List Char) ++ rest) = '[' :: ']' :: rest
              from rfl,
            skipWs_cons_false _ _ (by decide)]
          simp [skipWs, isJsonWs, headIs]
        | cons x xs2 =>
          have heq : strJ gap ind (.arr (x :: xs2)) = '[' :: (openSep gap ind
              ++ (strJL gap (ind ++ gap) (x :: xs2)
                ++ (closeSep gap ind ++ [']']))) := by
            simp [strJ]
          rw [heq, parseVal_succ, List.cons_append,
            skipWs_cons_false _ _ (by decide)]
          simp only [List.append_assoc, List.singleton_append]
          rw [show (skipWs (openSep gap ind ++ (strJL gap (ind ++ gap)
              (x :: xs2) ++ (closeSep gap ind ++ (']' :: rest)))))
              = strJL gap (ind ++ gap) (x :: xs2)
                ++ (closeSep gap ind ++ (']' :: rest)) from by
            rw [skipWs_ws_append _ _ (allWs_openSep gap ind hg hi),
              skipWs_strJL]]
          have hh : headIs (strJL gap (ind ++ gap) (x :: xs2)
              ++ (closeSep gap ind ++ ']' :: rest)) ']' = false :=
            headIs_strJL_ne _ _ _ _ _ _ (Or.inl rfl)
          rw [if_neg (by decide), if_neg (by decide), if_pos trivial]
          simp only [hh, Bool.false_eq_true, if_false]
          rw [ihE gap (ind ++ gap) (x :: xs2) (closeSep gap ind) rest hg
            (allWs_append ind gap hi hg) (allWs_closeSep gap ind hi) hr
            (by simp) (by simp only [jsize] at hs; omega),
            Option.map_some']
      | obj ms =>
        cases ms with
        | nil =>
          rw [show strJ gap ind (.obj []) = ['{', '}'] from by simp [strJ],
            parseVal_succ,
            show ((['{', '}'] : List Char) ++ rest) = '{' :: '}' :: rest
              from rfl,
            skipWs_cons_false _ _ (by decide)]
          simp [skipWs, isJsonWs, headIs]
        | cons m ms2 =>
          have heq : strJ gap ind (.obj (m :: ms2)) = '{' :: (openSep gap ind
              ++ (strJM gap (ind ++ gap) (m :: ms2)
                ++ (closeSep gap ind ++ ['}']))) := by
            simp [strJ]
          obtain ⟨T, hT⟩ := strJM_cons gap (ind ++ gap) m ms2
          rw [heq, parseVal_succ, List.cons_append,
            skipWs_cons_false _ _ (by decide)]
          simp only [List.append_assoc, List.singleton_append]
          rw [show (skipWs (openSep gap ind ++ (strJM gap (ind ++ gap)
              (m :: ms2) ++ (closeSep gap ind ++ ('}' :: rest)))))
              = strJM gap (ind ++ gap) (m :: ms2)
                ++ (closeSep gap ind ++ ('}' :: rest)) from by
            rw [skipWs_ws_append _ _ (allWs_openSep gap ind hg hi), hT,
              List.cons_append, skipWs_cons_false _ _ (by decide),
              ← List.cons_append, ← hT]]
          have hh : headIs (strJM gap (ind ++ gap) (m :: ms2)
              ++ (closeSep gap ind ++ '}' :: rest)) '}' = false := by
            rw [hT, List.cons_append, headIs]
            rfl
          rw [if_neg (by decide), if_pos trivial]
          simp only [hh, Bool.false_eq_true, if_false]
          rw [ihM gap (ind ++ gap) (m :: ms2) (closeSep gap ind) rest hg
            (allWs_append ind gap hi hg) (allWs_closeSep gap ind hi) hr
            (by simp) (by simp only [jsize] at hs; omega),
            Option.map_some']
    · intro gap ind xs w rest hg hi hw hr hne hs
      cases xs with
      | nil => cases hne rfl
      | cons x xs2 =>
        cases xs2 with
        | nil =>
          rw [show strJL gap ind [x] = strJ gap ind x from by simp [strJL],
            parseElems_succ,
            ihV gap ind x (w ++ ']' :: rest) hg hi
              (restOK_ws_cons w hw ']' (by decide) rest)
              (by simp only [jsizeL] at hs; omega)]
          show (match skipWs (w ++ ']' :: rest) with
              | [] => none
              | c :: r3 =>
                if c = ',' then
                  Option.map (fun p => (x :: p.1, p.2)) (parseElems fuel r3)
                else if c = ']' then some ([x], r3) else none)
            = some ([x], rest)
          rw [skipWs_ws_append w _ hw, skipWs_cons_false _ _ (by decide)]
          simp
        | cons y ys =>
          have heq : strJL gap ind (x :: y :: ys) = strJ gap ind x
              ++ (',' :: (elemSep gap ind ++ strJL gap ind (y :: ys))) := by
            simp [strJL]
          rw [heq]
          simp only [List.append_assoc, List.cons_append]
          rw [parseElems_succ,
            ihV gap ind x (',' :: (elemSep gap ind ++ (strJL gap ind (y :: ys)
              ++ (w ++ ']' :: rest)))) hg hi (restOK_cons ',' _ (by decide))
              (by simp only [jsizeL] at hs; omega)]
          show (match skipWs (',' :: (elemSep gap ind ++ (strJL gap ind
                (y :: ys) ++ (w ++ ']' :: rest)))) with
              | [] => none
              | c :: r3 =>
                if c = ',' then
                  Option.map (fun p => (x :: p.1, p.2)) (parseElems fuel r3)
                else if c = ']' then some ([x], r3) else none)
            = some (x :: y :: ys, rest)
          rw [skipWs_cons_false _ _ (by decide)]
          show Option.map (fun p => (x :: p.1, p.2)) (parseElems fuel
              (elemSep gap ind ++ (strJL gap ind (y :: ys)
                ++ (w ++ ']' :: rest))))
            = some (x :: y :: ys, rest)
          rw [parseElems_ws fuel (elemSep gap ind) _ (allWs_elemSep gap ind hi),
            ihE gap ind (y :: ys) w rest hg hi hw hr (by simp)
              (by simp only [jsizeL] at hs ⊢; omega),
            Option.map_some']
    · intro gap ind ms w rest hg hi hw hr hne hs
      cases ms with
      | nil => cases hne rfl
      | cons m ms2 =>
        cases ms2 with
        | nil =>
          have hT : strJM gap ind [m] = '"' :: (escBody m.1 ++ '"' :: ':'
              :: (colonSep gap ++ strJ gap ind m.2)) := by
            rw [show strJM gap ind [m] = quoteString m.1 ++ ':'
                :: colonSep gap ++ strJ gap ind m.2 from by simp [strJM]]
            simp [quoteString, List.append_assoc]
          rw [hT, parseMembers_succ]
          simp only [List.cons_append, List.append_assoc]
          rw [skipWs_cons_false _ _ (by decide)]
          simp only [reduceIte]
          rw [parseStrBody_quote m.1 _]
          simp only []
          rw [skipWs_cons_false _ _ (by decide)]
          simp only [reduceIte]
          rw [parseVal_ws fuel (colonSep gap) _ (allWs_colonSep gap),
            ihV gap ind m.2 (w ++ '}' :: rest) hg hi
              (restOK_ws_cons w hw '}' (by decide) rest)
              (by simp only [jsizeM] at hs; omega)]
          simp only []
          rw [skipWs_ws_append w _ hw, skipWs_cons_false _ _ (by decide)]
          simp only [reduceIte]
          simp
        | cons m2 ms3 =>
          have hT : strJM gap ind (m :: m2 :: ms3) = '"' :: (escBody m.1
              ++ '"' :: ':' :: (colonSep gap ++ (strJ gap ind m.2
                ++ (',' :: (elemSep gap ind ++ strJM gap ind (m2 :: ms3))))))
              := by
            rw [show strJM gap ind (m :: m2 :: ms3) = quoteString m.1 ++ ':'
                :: colonSep gap ++ strJ gap ind m.2 ++ ','
                :: elemSep gap ind ++ strJM gap ind (m2 :: ms3) from by
              simp [strJM]]
            simp [quoteString, List.append_assoc]
          rw [hT, parseMembers_succ]
          simp only [List.cons_append, List.append_assoc]
          rw [skipWs_cons_false _ _ (by decide)]
          simp only [reduceIte]
          rw [parseStrBody_quote m.1 _]
          simp only []
          rw [skipWs_cons_false _ _ (by decide)]
          simp only [reduceIte]
          rw [parseVal_ws fuel (colonSep gap) _ (allWs_colonSep gap),
            ihV gap ind m.2 (',' :: (elemSep gap ind
              ++ (strJM gap ind (m2 :: ms3) ++ (w ++ '}' :: rest)))) hg hi
              (restOK_cons ',' _ (by decide))
              (by simp only [jsizeM] at hs; omega)]
          simp only []
          rw [skipWs_cons_false _ _ (by decide)]
          simp only [reduceIte]
          rw [parseMembers_ws fuel (elemSep gap ind) _
              (allWs_elemSep gap ind hi),
            ihM gap ind (m2 :: ms3) w rest hg hi hw hr (by simp)
              (by simp only [jsizeM] at hs ⊢; omega)]
          simp

/-! ## The serialized form is at least as long as the structural size -/

theorem numChars_ne_nil (n : Int) : numChars n ≠ [] := by
  rw [numChars]
  by_cases h : n < 0
  · rw [if_pos h]
    simp
  · rw [if_neg h]
    exact natDigits_ne_nil _

mutual

theorem jsizeLeLenV (gap ind : List Char) : ∀ v : Json,
    jsize v ≤ (strJ gap ind v).length
  | .null => by simp [jsize, strJ]
  | .bool true => by simp [jsize, strJ]
  | .bool false => by simp [jsize, strJ]
  | .num n => by
    rw [show strJ gap ind (.num n) = numChars n from by simp [strJ]]
    have h1 : 0 < (numChars n).length :=
      List.length_pos.mpr (numChars_ne_nil n)
    simp only [jsize]
    omega
  | .str s => by
    rw [show strJ gap ind (.str s) = quoteString s from by simp [strJ],
      quoteString]
    simp [jsize]
  | .arr [] => by simp [jsize, jsizeL, strJ]
  | .arr (x :: xs) => by
    have hL := jsizeLeLenL gap (ind ++ gap) (x :: xs)
    rw [show strJ gap ind (.arr (x :: xs)) = '[' :: (openSep gap ind
        ++ (strJL gap (ind ++ gap) (x :: xs)
          ++ (closeSep gap ind ++ [']']))) from by simp [strJ]]
    simp only [jsize, List.length_cons, List.length_append,
      List.length_singleton]
    omega
  | .obj [] => by simp [jsize, jsizeM, strJ]
  | .obj (m :: ms) => by
    have hM := jsizeLeLenM gap (ind ++ gap) (m :: ms)
    rw [show strJ gap ind (.obj (m :: ms)) = '{' :: (openSep gap ind
        ++ (strJM gap (ind ++ gap) (m :: ms)
          ++ (closeSep gap ind ++ ['}']))) from by simp [strJ]]
    simp only [jsize, List.length_cons, List.length_append,
      List.length_singleton]
    omega
termination_by structural v => v

theorem jsizeLeLenL (gap ind2 : List Char) : ∀ xs : List Json,
    jsizeL xs ≤ (strJL gap ind2 xs).length + 1
  | [] => by simp [jsizeL]
  | [x] => by
    have hV := jsizeLeLenV gap ind2 x
    rw [show strJL gap ind2 [x] = strJ gap ind2 x from by simp [strJL]]
    simp only [jsizeL]
    omega
  | x :: y :: ys => by
    have hV := jsizeLeLenV gap ind2 x
    have hL := jsizeLeLenL gap ind2 (y :: ys)
    rw [show strJL gap ind2 (x :: y :: ys) = strJ gap ind2 x
        ++ (',' :: (elemSep gap ind2 ++ strJL gap ind2 (y :: ys))) from by
      simp [strJL]]
    simp only [jsizeL] at hL ⊢
    simp only [List.length_append, List.length_cons]
    omega
termination_by structural l => l

theorem jsizeLeLenM (gap ind2 : List Char) : ∀ ms : List (String × Json),
    jsizeM ms ≤ (strJM gap ind2 ms).length + 1
  | [] => by simp [jsizeM]
  | [m] => by
    have hV := jsizeLeLenV gap ind2 m.2
    rw [show strJM gap ind2 [m] = quoteString m.1 ++ ':'
        :: colonSep gap ++ strJ gap ind2 m.2 from by simp [strJM]]
    simp only [jsizeM, List.length_append, List.length_cons]
    omega
  | m :: m2 :: ms3 => by
    have hV := jsizeLeLenV gap ind2 m.2
    have hM := jsizeLeLenM gap ind2 (m2 :: ms3)
    rw [show strJM gap ind2 (m :: m2 :: ms3) = quoteString m.1 ++ ':'
        :: colonSep gap ++ strJ gap ind2 m.2 ++ ','
        :: elemSep gap ind2 ++ strJM gap ind2 (m2 :: ms3) from by
      simp [strJM]]
    simp only [jsizeM] at hM ⊢
    simp only [List.length_append, List.length_cons]
    omega
termination_by structural l => l

end

/-! ## JSON.parse inverts JSON.stringify on both rendering modes -/

theorem jsonParse_render (pretty : Bool) (d : Json) :
    jsonParse (renderJson pretty d) = some d := by
  rw [renderJson, jsonParse]
  have hgap : allWs (if pretty then ([' ', ' '] : List Char) else []) = true := by
    cases pretty <;> decide
  have hfuel : jsize d
      ≤ (strJ (if pretty then ([' ', ' '] : List Char) else []) [] d).length
        + 1 := by
    have := jsizeLeLenV (if pretty then ([' ', ' '] : List Char) else []) [] d
    omega
  have hmain := (rt_all ((strJ (if pretty then ([' ', ' '] : List Char)
      else []) [] d).length + 1)).1
    (if pretty then ([' ', ' '] : List Char) else []) [] d [] hgap rfl rfl
    hfuel
  rw [List.append_nil] at hmain
  rw [show (String.mk (strJ (if pretty then ([' ', ' '] : List Char) else [])
      [] d)).data = strJ (if pretty then ([' ', ' '] : List Char) else [])
      [] d from rfl, hmain]
  simp [skipWs]

/-! ## Store lemmas -/

theorem renderJson_ne_empty (pretty : Bool) (d : Json) :
    renderJson pretty d ≠ "" := by
  rw [renderJson]
  obtain ⟨c, cs, h1, _⟩ := strJ_shape (if pretty then [' ', ' '] else []) [] d
  rw [h1]
  intro hcon
  have hdata := congrArg String.data hcon
  simp at hdata

theorem lookupFile_insert (fs : List (String × String)) (p v : String) :
    lookupFile ((p, v) :: fs) p = some v := by
  simp [lookupFile]

/-! ## Claim theorems for the document store -/

/-- C10: a read operation never changes the store: every branch of the
GET handler (invalid path, not found, success, read error) leaves the
files and directories exactly as they were. -/
theorem C10_read_preserves_store (st : Store) (root reqPath : String)
    (pretty : Bool) : (readOp st root reqPath pretty).2 = st := by
  rw [readOp.eq_def]
  split
  · rfl
  · simp only []
    split
    · split
      · rfl
      · split
        · rfl
        · split
          · rfl
          · rfl
    · rfl

/-- C7: a write whose body is absent is rejected with MissingBody before
any storage is touched: the store, files and directories alike, is
returned unchanged. -/
theorem C7_missing_body (st : Store) (root p : String) (pretty : Bool)
    (c : String) (hs : sanitize p = some c) :
    writeOp st root p none pretty = (.missingBody, st) := by
  unfold writeOp
  rw [hs]

/-- Witness for C7 on the empty store. -/
theorem C7_missing_body_witness :
    sanitize "/a.json" = some "a.json" ∧
      writeOp ⟨[], []⟩ "/d" "/a.json" none true
        = (.missingBody, ⟨[], []⟩) :=
  ⟨by decide, C7_missing_body ⟨[], []⟩ "/d" "/a.json" true "a.json"
    (by decide)⟩

/-- C6: reading a path at which a file exists yields the empty object
when the content is empty, the rendered parse of the content otherwise,
and a read error exactly when the content is nonempty and not valid
JSON (with a file present, the read itself cannot fail). -/
theorem C6_read_existing (st : Store) (root p : String) (pretty : Bool)
    (c txt : String) (hs : sanitize p = some c)
    (hf : lookupFile st.files (pathJoin2 root c) = some txt) :
    ((readOp st root p pretty).1 = .readError
      ↔ (txt ≠ "" ∧ jsonParse txt = none)) ∧
    (txt = "" →
      (readOp st root p pretty).1 = .ok (renderJson pretty (Json.obj []))) ∧
    (∀ d, jsonParse txt = some d → txt ≠ "" →
      (readOp st root p pretty).1 = .ok (renderJson pretty d)) := by
  have hex : fsExists st (pathJoin2 root c) = true := by
    simp [fsExists, isFile, hf]
  have hread : readOp st root p pretty
      = (if txt = "" then (.ok (renderJson pretty (Json.obj [])), st)
        else match jsonParse txt with
          | none => (.readError, st)
          | some d => (.ok (renderJson pretty d), st)) := by
    unfold readOp
    rw [hs]
    simp only []
    rw [if_pos hex, hf]
  refine ⟨?_, ?_, ?_⟩
  · by_cases ht : txt = ""
    · rw [hread, if_pos ht]
      simp [ht]
    · rw [hread, if_neg ht]
      cases hp : jsonParse txt with
      | none => simp [ht, hp]
      | some d => simp [ht, hp]
  · intro ht
    rw [hread, if_pos ht]
  · intro d hp ht
    rw [hread, if_neg ht, hp]

/-- Witness for C6 with an empty file, a valid document and a malformed
document in the store. -/
theorem C6_read_existing_witness :
    (sanitize "/a.json" = some "a.json" ∧
      lookupFile [("/d/a.json", "[1,2]")] (pathJoin2 "/d" "a.json")
        = some "[1,2]") ∧
    (((readOp ⟨[("/d/a.json", "[1,2]")], []⟩ "/d" "/a.json" true).1
        = .readError ↔ ("[1,2]" ≠ "" ∧ jsonParse "[1,2]" = none)) ∧
      ("[1,2]" = "" →
        (readOp ⟨[("/d/a.json", "[1,2]")], []⟩ "/d" "/a.json" true).1
          = .ok (renderJson true (Json.obj []))) ∧
      (∀ d, jsonParse "[1,2]" = some d → "[1,2]" ≠ "" →
        (readOp ⟨[("/d/a.json", "[1,2]")], []⟩ "/d" "/a.json" true).1
          = .ok (renderJson true d))) :=
  ⟨⟨by decide, by decide⟩,
    C6_read_existing ⟨[("/d/a.json", "[1,2]")], []⟩ "/d" "/a.json" true
      "a.json" "[1,2]" (by decide) (by decide)⟩

/-- C4: a successful write of a document followed by a read of the same
request path yields exactly the written document, rendered in whatever
mode the read asks for, for either rendering mode of the write. -/
theorem C4_write_read_round_trip (st : Store) (root p : String) (doc : Json)
    (pr1 pr2 : Bool) (c : String) (b : Nat) (st2 : Store)
    (hs : sanitize p = some c)
    (hw : writeOp st root p (some doc) pr1 = (.ok c b, st2)) :
    (readOp st2 root p pr2).1 = .ok (renderJson pr2 doc) := by
  unfold writeOp at hw
  rw [hs] at hw
  simp only [] at hw
  cases he : ensureDirF st (pathJoin2 root c) with
  | none =>
    rw [he] at hw
    simp at hw
  | some dirs2 =>
    rw [he] at hw
    simp only [] at hw
    by_cases hm : memStr dirs2 (pathJoin2 root c) = true
    · rw [if_pos hm] at hw
      simp at hw
    · rw [if_neg (by simpa using hm)] at hw
      have hst2 : st2 = ⟨(pathJoin2 root c, renderJson pr1 doc) :: st.files,
          dirs2⟩ := by
        have := congrArg Prod.snd hw
        exact this.symm
      subst hst2
      unfold readOp
      rw [hs]
      simp only []
      have hlook : lookupFile ((pathJoin2 root c, renderJson pr1 doc)
          :: st.files) (pathJoin2 root c) = some (renderJson pr1 doc) :=
        lookupFile_insert st.files _ _
      have hex : fsExists ⟨(pathJoin2 root c, renderJson pr1 doc)
          :: st.files, dirs2⟩ (pathJoin2 root c) = true := by
        simp [fsExists, isFile, hlook]
      rw [if_pos hex, hlook]
      simp only []
      rw [if_neg (renderJson_ne_empty pr1 doc), jsonParse_render pr1 doc]

/-- Witness for C4: write compact, read pretty. -/
theorem C4_write_read_round_trip_witness :
    (sanitize "/x.json" = some "x.json" ∧
      writeOp ⟨[], []⟩ "/d" "/x.json" (some (.arr [.num 42])) false
        = (.ok "x.json" 4, ⟨[("/d/x.json", "[42]")], ["/d"]⟩)) ∧
    (readOp ⟨[("/d/x.json", "[42]")], ["/d"]⟩ "/d" "/x.json" true).1
      = .ok (renderJson true (.arr [.num 42])) :=
  ⟨⟨by decide, by rfl⟩,
    C4_write_read_round_trip ⟨[], []⟩ "/d" "/x.json" (.arr [.num 42])
      false true "x.json" 4
      ⟨[("/d/x.json", "[42]")], ["/d"]⟩ (by decide) (by rfl)⟩

/-- C5 as written is false on the code: writing a nested document path
creates its parent directories, and a later read of a never-written path
occupied by such a directory passes the existence check, fails the file
read (EISDIR), and reports a read error instead of not-found.  The
counterexample writes "/a.json/b.json" into an empty store and then
reads "/a.json": no file was ever written there, yet the result is
ReadError. -/
theorem C5_counterexample :
    lookupFile (writeOp ⟨[], []⟩ "/d" "/a.json/b.json"
        (some (Json.obj [])) true).2.files (pathJoin2 "/d" "a.json")
      = none ∧
    (readOp (writeOp ⟨[], []⟩ "/d" "/a.json/b.json"
        (some (Json.obj [])) true).2 "/d" "/a.json" true).1
      = .readError :=
  ⟨rfl, rfl⟩

/-- C5 amended: reading a sanitized path at which neither a file nor a
directory exists returns NotFound, not an error; when an intermediate
directory created by an earlier deeper write occupies the path, the read
returns ReadError instead. -/
theorem C5_not_found (st : Store) (root p : String) (pretty : Bool)
    (c : String) (hs : sanitize p = some c)
    (hfile : lookupFile st.files (pathJoin2 root c) = none)
    (hdir : memStr st.dirs (pathJoin2 root c) = false) :
    (readOp st root p pretty).1 = .notFound := by
  unfold readOp
  rw [hs]
  simp only []
  have hex : fsExists st (pathJoin2 root c) = false := by
    simp [fsExists, isFile, isDir, hfile, hdir]
  rw [if_neg (by simp [hex])]

/-- Witness for the amended C5 on the empty store. -/
theorem C5_not_found_witness :
    (sanitize "/nope.json" = some "nope.json" ∧
      lookupFile (⟨[], []⟩ : Store).files (pathJoin2 "/d" "nope.json")
        = none ∧
      memStr (⟨[], []⟩ : Store).dirs (pathJoin2 "/d" "nope.json") = false) ∧
    (readOp ⟨[], []⟩ "/d" "/nope.json" false).1 = .notFound :=
  ⟨⟨by decide, by decide, by decide⟩,
    C5_not_found ⟨[], []⟩ "/d" "/nope.json" false "nope.json" (by decide)
      (by decide) (by decide)⟩

end SV13
